import Mathlib

/-!
Verification development for the mfsng repository: a read-only `fs.FS`
implementation over a UnixFS merkledag (fs.go, dir.go, file.go) together
with a mutable tree builder (the cid-based builder variant with lazy
`unpack`, and its flush via `buildNode`).

Modelling conventions.

* Content addressing: a stored node is identified by the hash (CID) of its
  serialized bytes, and two nodes are equal iff their hashes are equal.
  We therefore model a CID by the abstract content tree itself (`UNode`):
  `cidOf n = n`.  A directory node carries its link list `(name, child cid)`
  in stored order; a file node is opaque to the directory layer and is
  modelled as a tag carrying an identifier, with no named links (the
  builder only ever attaches already-stored file nodes by hash, and their
  unnamed chunk links play no role in any claim).
* The DAG service collaborator is total: `Get` on a CID returns the node
  with that CID (content addressing).  Store mutation is observed by
  counting `Add` (put) calls, which `buildNode` performs once per open
  node it serializes.
* The external unixfs directory serializer (`uio.NewDirectory` /
  `dir.AddChild` / `dir.GetNode`) is modelled from its documented
  contract, which the spec also states: `AddChild` removes any existing
  link with the same name and appends the new link (last-wins
  deduplication), and serialization stores the links sorted byte-wise
  ascending by name (go-merkledag sorts ProtoNode links on encode), so
  the resulting CID is independent of insertion order.
* Go string splitting: `strings.Split(p, "/")` (= `ipath.SplitList`, and
  the repeated `Cut(·, "/")` loop of the builder) is modelled by
  `splitOnSlash`, and `strings.Trim(p, "/")` by `trimSlash`, both defined
  by recursion on the character list.  `fs.ValidPath` is modelled by
  `validPath` (Lean strings are always valid unicode, so the utf8 check
  is vacuous).
-/

/-- Abstract content-addressed node.  `dir links` is a directory node
whose dag-pb links are `links` in stored order; `file id` is an opaque
already-stored file node identified by `id`.  Under content addressing a
CID is identified with the node it names. -/
inductive UNode : Type where
  | dir (links : List (String × UNode)) : UNode
  | file (id : Nat) : UNode

mutual

def UNode.decEq : (a b : UNode) → Decidable (a = b)
  | .dir ls, .dir ls₂ =>
    match UNode.decEqLinks ls ls₂ with
    | isTrue h => isTrue (by rw [h])
    | isFalse h => isFalse (by intro hh; cases hh; exact h rfl)
  | .dir _, .file _ => isFalse (by intro h; cases h)
  | .file _, .dir _ => isFalse (by intro h; cases h)
  | .file i, .file j =>
    match Nat.decEq i j with
    | isTrue h => isTrue (by rw [h])
    | isFalse h => isFalse (by intro hh; cases hh; exact h rfl)

def UNode.decEqEntry : (a b : String × UNode) → Decidable (a = b)
  | (s, u), (t, v) =>
    match String.decEq s t, UNode.decEq u v with
    | isTrue h₁, isTrue h₂ => isTrue (by rw [h₁, h₂])
    | isFalse h₁, _ => isFalse (by intro hh; cases hh; exact h₁ rfl)
    | _, isFalse h₂ => isFalse (by intro hh; cases hh; exact h₂ rfl)

def UNode.decEqLinks : (a b : List (String × UNode)) → Decidable (a = b)
  | [], [] => isTrue rfl
  | [], _ :: _ => isFalse (by intro h; cases h)
  | _ :: _, [] => isFalse (by intro h; cases h)
  | e :: es, f :: fs =>
    match UNode.decEqEntry e f, UNode.decEqLinks es fs with
    | isTrue h₁, isTrue h₂ => isTrue (by rw [h₁, h₂])
    | isFalse h₁, _ => isFalse (by intro hh; cases hh; exact h₁ rfl)
    | _, isFalse h₂ => isFalse (by intro hh; cases hh; exact h₂ rfl)

end

instance : DecidableEq UNode := UNode.decEq

def UNode.decEqOpt : (a b : Option UNode) → Decidable (a = b)
  | none, none => isTrue rfl
  | none, some _ => isFalse (by intro h; cases h)
  | some _, none => isFalse (by intro h; cases h)
  | some u, some v =>
    match UNode.decEq u v with
    | isTrue h => isTrue (by rw [h])
    | isFalse h => isFalse (by intro hh; cases hh; exact h rfl)

namespace UNode

/-- The outgoing links of a stored node, as returned by `Links()` /
`GetLinks`: a directory node lists its named child links; a file node has
no named links (its chunk links carry empty names and are irrelevant to
every claim, see module comment). -/
def linksOf : UNode → List (String × UNode)
  | .dir ls => ls
  | .file _ => []

/-- Whether the node is a file node (unixfs type TFile). -/
def isFile : UNode → Bool
  | .dir _ => false
  | .file _ => true

end UNode

/-- `fsnode`: a node of the builder's ephemeral filesystem tree
(part_001).  The Go struct keeps the first child and a `next` sibling
pointer; the sibling chain of a parent is modelled as `children` in
chain order.  `cid = none` models `cid.Undef`. -/
inductive FsNode : Type where
  | mk (name : String) (cid : Option UNode) (children : List FsNode) : FsNode

mutual

def FsNode.decEq : (a b : FsNode) → Decidable (a = b)
  | .mk nm c cs, .mk nm₂ c₂ cs₂ =>
    match String.decEq nm nm₂, UNode.decEqOpt c c₂, FsNode.decEqList cs cs₂ with
    | isTrue h₁, isTrue h₂, isTrue h₃ => isTrue (by rw [h₁, h₂, h₃])
    | isFalse h₁, _, _ => isFalse (by intro hh; cases hh; exact h₁ rfl)
    | _, isFalse h₂, _ => isFalse (by intro hh; cases hh; exact h₂ rfl)
    | _, _, isFalse h₃ => isFalse (by intro hh; cases hh; exact h₃ rfl)

def FsNode.decEqList : (a b : List FsNode) → Decidable (a = b)
  | [], [] => isTrue rfl
  | [], _ :: _ => isFalse (by intro h; cases h)
  | _ :: _, [] => isFalse (by intro h; cases h)
  | e :: es, f :: fs =>
    match FsNode.decEq e f, FsNode.decEqList es fs with
    | isTrue h₁, isTrue h₂ => isTrue (by rw [h₁, h₂])
    | isFalse h₁, _ => isFalse (by intro hh; cases hh; exact h₁ rfl)
    | _, isFalse h₂ => isFalse (by intro hh; cases hh; exact h₂ rfl)

end

instance : DecidableEq FsNode := FsNode.decEq

namespace FsNode

def name : FsNode → String
  | .mk nm _ _ => nm

def cid : FsNode → Option UNode
  | .mk _ c _ => c

def children : FsNode → List FsNode
  | .mk _ _ cs => cs

@[simp] theorem name_mk (nm : String) (c : Option UNode) (cs : List FsNode) :
    (FsNode.mk nm c cs).name = nm := rfl

@[simp] theorem cid_mk (nm : String) (c : Option UNode) (cs : List FsNode) :
    (FsNode.mk nm c cs).cid = c := rfl

@[simp] theorem children_mk (nm : String) (c : Option UNode) (cs : List FsNode) :
    (FsNode.mk nm c cs).children = cs := rfl

end FsNode

/-! ## Go string helpers: Split, Trim, ValidPath -/

/-- `strings.Split` on the separator character `/`, on character lists:
`splitChars []` is `[[]]`, matching `strings.Split("", "/") = [""]`. -/
def splitChars : List Char → List (List Char)
  | [] => [[]]
  | c :: cs =>
    if c = '/' then [] :: splitChars cs
    else
      match splitChars cs with
      | [] => [[c]]
      | s :: rest => (c :: s) :: rest

/-- `strings.Split(s, "/")` (= `ipath.SplitList`); it also describes the
segment sequence produced by the builder's `Cut(·, "/")` loop. -/
def splitOnSlash (s : String) : List String :=
  (splitChars s.data).map (fun l => String.mk l)

/-- `strings.Trim(s, "/")`: remove leading and trailing `/` characters. -/
def trimSlash (s : String) : String :=
  String.mk ((((s.data.dropWhile (fun c => c = '/')).reverse).dropWhile (fun c => c = '/')).reverse)

/-- `fs.ValidPath`: `"."` is the valid root path; otherwise every
slash-separated element must be nonempty and differ from `"."` and
`".."`.  (The utf8 validity check always holds for Lean strings.) -/
def validPath (p : String) : Bool :=
  if p = "." then true
  else (splitOnSlash p).all (fun s => !(s = "") && !(s = ".") && !(s = ".."))

/-! ## The unixfs directory serializer (external collaborator)

Modelled from the spec: the repository's `buildNode` hands children to
`uio.NewDirectory`'s `AddChild` and stores `GetNode()`'s result; the
collaborator deduplicates links by name last-wins (`AddChild` removes an
existing link of the same name before appending) and serializes links
sorted byte-wise ascending by name, as §4.1/§4.5 of the spec require for
stable hashing. -/

/-- Lexicographic comparison of character lists by code point.  UTF-8
is order-preserving on code points, so this is exactly Go's byte-wise
string comparison `s <= t`. -/
def charListLe : List Char → List Char → Bool
  | [], _ => true
  | _ :: _, [] => false
  | c :: cs, d :: ds =>
    if c.toNat < d.toNat then true
    else if d.toNat < c.toNat then false
    else charListLe cs ds

/-- Go's byte-wise string comparison `s <= t`. -/
def strLe (s t : String) : Bool := charListLe s.data t.data

/-- `AddChild` of the unixfs directory builder: drop any existing link
with the same name, then append the new link. -/
def addLink (acc : List (String × UNode)) (nm : String) (u : UNode) :
    List (String × UNode) :=
  (acc.filter (fun e => !(e.1 = nm))) ++ [(nm, u)]

/-- Insert a link into a name-sorted link list (insertion sort step). -/
def insLink (e : String × UNode) : List (String × UNode) → List (String × UNode)
  | [] => [e]
  | f :: fs => if strLe e.1 f.1 then e :: f :: fs else f :: insLink e fs

/-- Serialization orders links byte-wise ascending by name
(go-merkledag sorts ProtoNode links on encode). -/
def sortLinks : List (String × UNode) → List (String × UNode)
  | [] => []
  | e :: es => insLink e (sortLinks es)

/-- First link with the given name, as `BasicDirectory.Find` /
`LookupByString` scan it; `none` models the NotFound result. -/
def assocFind (ls : List (String × UNode)) (nm : String) : Option UNode :=
  (ls.find? (fun e => e.1 = nm)).map (fun e => e.2)

/-! ## Builder operations (part_001) -/

/-- `fsnode.unpack`: populate the children of a sealed fsnode from the
stored node's links and clear its cid; a no-op on an already-open node
(`cid == cid.Undef` returns immediately). -/
def unpack (p : FsNode) : FsNode :=
  match p.cid with
  | none => p
  | some u => .mk p.name none ((u.linksOf).map (fun e => FsNode.mk e.1 (some e.2) []))

/-- Number of store fetches `fsnode.unpack` performs: zero on an open
node (early return before any getter call), one on a sealed node
(`GetLinks`, falling back to `Get`, against the cid). -/
def unpackGets (p : FsNode) : Nat :=
  match p.cid with
  | none => 0
  | some _ => 1

/-- `fsnode.addChild`: append `c` to the sibling chain; when the chain
was empty the parent's cid is additionally cleared ("mark parent as
mutated"). -/
def addChild (p : FsNode) (c : FsNode) : FsNode :=
  match p.children with
  | [] => .mk p.name none [c]
  | cs => .mk p.name p.cid (cs ++ [c])

/-- `fsnode.findOrAddChild` combined with the in-place mutation of the
returned child by the remaining descent `f`: `f` is applied to the
first child with the given name, and to a freshly appended open child
(`&fsnode{name: s}`) when no child carries the name. -/
def updFirst (cs : List FsNode) (s : String) (f : FsNode → FsNode) : List FsNode :=
  match cs with
  | [] => [f (.mk s none [])]
  | c :: cs' =>
    if c.name = s then f c :: cs'
    else c :: updFirst cs' s f

/-- `Builder.MkdirAll`'s descent over the path segments: for each
nonempty segment, unpack the current node and find-or-create the child
with that name; the loop stops at the first empty segment (`Cut`
returns `name = ""`).  The final node is not unpacked. -/
def mkdirSegs (segs : List String) (n : FsNode) : FsNode :=
  match segs with
  | [] => n
  | s :: rest =>
    if s = "" then n
    else
      match unpack n with
      | .mk nm c cs => .mk nm c (updFirst cs s (mkdirSegs rest))

/-- `Builder.WriteFileNode`'s work on the segment list: descend (unpack,
find-or-add) through all but the last segment, then unpack the parent
and `addChild` a sealed leaf holding the written node's cid. -/
def writeSegs (segs : List String) (u : UNode) : FsNode → FsNode :=
  match segs with
  | [] => fun n => n
  | [last] => fun n => addChild (unpack n) (.mk last (some u) [])
  | s :: s2 :: rest => fun n =>
    match unpack n with
    | .mk nm c cs => .mk nm c (updFirst cs s (writeSegs (s2 :: rest) u))

mutual

/-- `buildNode`: a sealed node is fetched from the store and its cid
reused verbatim (no put); an open node serializes its children
(post-order) into a fresh directory node via the unixfs serializer
(`AddChild` fold, sorted encode), stores it (one put) and seals itself
(`n.child = nil`).  Returns the built node together with the number of
store `Add` calls performed. -/
def buildNode : FsNode → UNode × Nat
  | .mk _ (some u) _ => (u, 0)
  | .mk _ none cs =>
    match buildChildren cs with
    | (pairs, puts) =>
      ((.dir (sortLinks (pairs.foldl (fun acc e => addLink acc e.1 e.2) []))), puts + 1)

/-- The sibling-chain part of `buildNode`: collect `(name, built node)`
pairs in sibling order as they are handed to `dir.AddChild`, and sum
the put counts. -/
def buildChildren : List FsNode → List (String × UNode) × Nat
  | [] => ([], 0)
  | c :: cs =>
    match buildNode c, buildChildren cs with
    | (u, p₁), (pairs, p₂) => ((c.name, u) :: pairs, p₁ + p₂)

end

@[simp] theorem buildNode_sealed (nm : String) (u : UNode) (cs : List FsNode) :
    buildNode (.mk nm (some u) cs) = (u, 0) := by
  rw [buildNode]

theorem buildNode_open (nm : String) (cs : List FsNode) :
    buildNode (.mk nm none cs) =
      ((.dir (sortLinks ((buildChildren cs).1.foldl (fun acc e => addLink acc e.1 e.2) []))),
        (buildChildren cs).2 + 1) := by
  rw [buildNode]

@[simp] theorem buildChildren_nil : buildChildren [] = ([], 0) := by
  rw [buildChildren]

@[simp] theorem buildChildren_cons (c : FsNode) (cs : List FsNode) :
    buildChildren (c :: cs) =
      ((c.name, (buildNode c).1) :: (buildChildren cs).1,
        (buildNode c).2 + (buildChildren cs).2) := by
  rw [buildChildren]

/-- The node value `buildNode` returns (the root hash of the subtree). -/
def buildVal (n : FsNode) : UNode := (buildNode n).1

/-- The number of store `Add` (put) calls `buildNode` performs. -/
def buildPuts (n : FsNode) : Nat := (buildNode n).2

/-- The builder (part_001).  The DAG service is the implicit total
content-addressed store; the embedded context carries no semantics here. -/
structure Builder : Type where
  root : FsNode
  node : Option UNode
deriving DecidableEq

/-- `NewBuilder`: zero-valued root fsnode, no cached root node. -/
def NewBuilder : Builder := ⟨.mk "" none [], none⟩

/-- `Builder.WithRootNode`: a builder over an existing stored root. -/
def Builder.WithRootNode (_b : Builder) (u : UNode) : Builder :=
  ⟨.mk "" (some u) [], some u⟩

/-- `Builder.MkdirAll`. -/
def Builder.MkdirAll (b : Builder) (path : String) : Builder :=
  ⟨mkdirSegs (splitOnSlash path) b.root, b.node⟩

/-- `Builder.WriteFileNode`. -/
def Builder.WriteFileNode (b : Builder) (path : String) (u : UNode) : Builder :=
  ⟨writeSegs (splitOnSlash path) u b.root, b.node⟩

/-- `Builder.Flush`: run `buildNode` on the root (which seals it in
place when it was open), record the returned node's cid on the root and
cache the node.  The second component counts the store puts. -/
def Builder.Flush (b : Builder) : Builder × Nat :=
  let r := buildNode b.root
  match b.root with
  | .mk nm none _ => (⟨.mk nm (some r.1) [], some r.1⟩, r.2)
  | .mk nm (some v) cs => (⟨.mk nm (some v) cs, some r.1⟩, r.2)

/-! ## Read-only filesystem (fs.go, dir.go) -/

/-- The base sentinel errors of `io/fs` that the code returns:
`fs.ErrInvalid` and `fs.ErrNotExist`. -/
inductive BaseErr : Type where
  | invalid : BaseErr
  | notExist : BaseErr
deriving DecidableEq

/-- `fs.PathError`: operation name, path, wrapped base error. -/
structure PathErr : Type where
  op : String
  path : String
  err : BaseErr
deriving DecidableEq

def exceptDecEq {ε α : Type} [DecidableEq ε] [DecidableEq α] :
    (a b : Except ε α) → Decidable (a = b)
  | .ok x, .ok y =>
    match decEq x y with
    | isTrue h => isTrue (by rw [h])
    | isFalse h => isFalse (by intro hh; cases hh; exact h rfl)
  | .ok _, .error _ => isFalse (by intro h; cases h)
  | .error _, .ok _ => isFalse (by intro h; cases h)
  | .error e, .error f =>
    match decEq e f with
    | isTrue h => isTrue (by rw [h])
    | isFalse h => isFalse (by intro hh; cases hh; exact h rfl)

instance {ε α : Type} [DecidableEq ε] [DecidableEq α] : DecidableEq (Except ε α) :=
  exceptDecEq

/-- A read-only filesystem handle (`FS`): its reified root directory
node.  `ReadFS` requires the root node to be a directory. -/
structure FSm : Type where
  root : UNode
deriving DecidableEq

/-- `ReadFS(node, getter)`: reify the root as a directory;
`uio.NewDirectoryFromNode` fails when the node is not a directory. -/
def mkReadFS (u : UNode) : Option FSm :=
  match u with
  | .dir _ => some ⟨u⟩
  | .file _ => none

/-- `Builder.ReadFS`: flush, then `ReadFS` on the flushed root node. -/
def Builder.ReadFSm (b : Builder) : Option FSm :=
  match (Builder.Flush b).1.node with
  | some u => mkReadFS u
  | none => none

/-- `Dir`: an open directory handle (dir.go).  `names` is the
`sync.Once`-cached name list; `offset` counts entries consumed by prior
`ReadDir` calls. -/
structure DirHandle : Type where
  dname : String
  dnode : UNode
  names : Option (List String)
  offset : Nat
deriving DecidableEq

/-- `File`: an open file handle over a file node. -/
structure FileHandle : Type where
  fname : String
  fnode : UNode
deriving DecidableEq

/-- The handle returned by `FS.Open` and carried by directory entries. -/
inductive Handle : Type where
  | dirH (d : DirHandle) : Handle
  | fileH (f : FileHandle) : Handle
deriving DecidableEq

/-- `newDir(ctx, name, node, getter)`: fresh handle, empty cache. -/
def newDir (nm : String) (u : UNode) : DirHandle := ⟨nm, u, none, 0⟩

/-- `newFile(ctx, name, node, getter)`. -/
def newFile (nm : String) (u : UNode) : FileHandle := ⟨nm, u⟩

/-- The name reported by a handle (`Name()` of `Dir` / `File`). -/
def Handle.hname : Handle → String
  | .dirH d => d.dname
  | .fileH f => f.fname

/-- The underlying node of a handle; under content addressing its CID
(`File.Cid` / `FileInfo.Cid`). -/
def Handle.hnode : Handle → UNode
  | .dirH d => d.dnode
  | .fileH f => f.fnode

/-- `listNames(node)`: the directory node's entry names in stored
(map-iterator / link) order, with no sorting. -/
def listNames (u : UNode) : List String := (u.linksOf).map (fun e => e.1)

/-- `Directory.Find` composed with the child fetch: the first link with
the given name, resolved to its node (content addressing makes the
fetch total); `none` is the `os.ErrNotExist` result. -/
def dirFind (u : UNode) (nm : String) : Option UNode := assocFind u.linksOf nm

/-- The segment walk inside `FS.locateNode` (fs.go): `Find` each
segment in the current directory; a miss is `fs.ErrNotExist`; the last
segment's node is returned with its own name; a non-terminal segment
whose node is not a directory (`uio.ErrNotADir` from
`NewDirectoryFromNode`) is `fs.ErrInvalid`. -/
def walkParts (ls : List (String × UNode)) (parts : List String) :
    Except BaseErr (UNode × String) :=
  match parts with
  | [] => .error .invalid
  | [seg] =>
    match assocFind ls seg with
    | none => .error .notExist
    | some child => .ok (child, seg)
  | seg :: rest =>
    match assocFind ls seg with
    | none => .error .notExist
    | some child =>
      match child with
      | .dir ls₂ => walkParts ls₂ rest
      | .file _ => .error .invalid

/-- `FS.locateNode`: trim `/` from both ends, split on `/`; the empty
part list (`parts == [""]`) resolves to the root node itself with an
empty terminal name, without touching the store. -/
def locateNode (fs : FSm) (path : String) : Except BaseErr (UNode × String) :=
  let parts := splitOnSlash (trimSlash path)
  if parts = [""] then .ok (fs.root, "")
  else walkParts fs.root.linksOf parts

/-- `FS.Open`: validate the path (`fs.ValidPath`), rewrite `"."` to the
empty path, locate the node, then hand it to `newDir` / `newFile`
according to its unixfs type; every failure is wrapped in a
`fs.PathError` with op `"open"`. -/
def FSm.Open (fs : FSm) (path : String) : Except PathErr Handle :=
  if !(validPath path) then .error ⟨("open"), path, .invalid⟩
  else
    let path := if path = "." then "" else path
    match locateNode fs path with
    | .error e => .error ⟨("open"), path, e⟩
    | .ok (node, nodeName) =>
      match node with
      | .dir _ => .ok (.dirH (newDir nodeName node))
      | .file _ => .ok (.fileH (newFile nodeName node))

/-- `FS.Sub`: locate the node (no path validation, no `"."` rewrite)
and root a new `FS` at it; a non-directory target is `fs.ErrInvalid`
(`uio.ErrNotADir`). -/
def FSm.Sub (fs : FSm) (path : String) : Except PathErr FSm :=
  match locateNode fs path with
  | .error e => .error ⟨("sub"), path, e⟩
  | .ok (node, _) =>
    match node with
    | .dir _ => .ok ⟨node⟩
    | .file _ => .error ⟨("sub"), path, .invalid⟩

/-- `dirEntry`: `Find` the named child and wrap it in a `Dir` / `File`
entry according to its type; a miss surfaces as `fs.ErrNotExist`. -/
def dirEntry (u : UNode) (nm : String) : Except BaseErr Handle :=
  match dirFind u nm with
  | none => .error .notExist
  | some child =>
    match child with
    | .dir _ => .ok (.dirH (newDir nm child))
    | .file _ => .ok (.fileH (newFile nm child))

/-- The entry-building loop shared by `FS.ReadDir` and `Dir.ReadDir`:
build an entry per name in order; on the first failure return the
entries built so far together with the failing name and error (the Go
code returns the partial slice plus a `PathError` whose path is the
entry name). -/
def readEntriesAcc (u : UNode) (names : List String) :
    List Handle × Option (String × BaseErr) :=
  match names with
  | [] => ([], none)
  | nm :: rest =>
    match dirEntry u nm with
    | .error e => ([], some (nm, e))
    | .ok h =>
      match readEntriesAcc u rest with
      | (hs, e?) => (h :: hs, e?)

/-- `sort.Strings`. -/
def insStr (s : String) : List String → List String
  | [] => [s]
  | t :: ts => if strLe s t then s :: t :: ts else t :: insStr s ts

/-- `sort.Strings`: byte-wise ascending sort of the name list. -/
def sortStrings : List String → List String
  | [] => []
  | s :: ss => insStr s (sortStrings ss)

/-- `FS.ReadDir`: rewrite `"."`, locate, require a directory, collect
the link names, sort them, then build one entry per name.  The result
pairs the (possibly partial) entry list with an optional error, matching
the Go signature `([]fs.DirEntry, error)`. -/
def FSm.ReadDir (fs : FSm) (path : String) : List Handle × Option PathErr :=
  let path := if path = "." then "" else path
  match locateNode fs path with
  | .error e => ([], some ⟨("readdir"), path, e⟩)
  | .ok (node, _) =>
    match node with
    | .file _ => ([], some ⟨("readdir"), path, .invalid⟩)
    | .dir ls =>
      let names := sortStrings (ls.map (fun e => e.1))
      match readEntriesAcc node names with
      | (hs, none) => (hs, none)
      | (hs, some (nm, e)) => (hs, some ⟨("readdir"), nm, e⟩)

/-- `Dir.ReadDir` errors: `io.EOF` at end-of-directory with a positive
limit, or a wrapped entry error. -/
inductive DirErr : Type where
  | eof : DirErr
  | perr (e : PathErr) : DirErr
deriving DecidableEq

/-- `Dir.ReadDir(limit)` (dir.go): compute the name list once (stored
order, no sorting), then return up to `limit` entries starting at the
current offset, advancing it; with `limit <= 0` return all remaining
entries; with a positive limit and nothing remaining return `io.EOF`.
On an entry error the offset advances past the entries built. -/
def DirHandle.readDir (d : DirHandle) (limit : Int) :
    DirHandle × (List Handle × Option DirErr) :=
  let d :=
    match d.names with
    | none => { d with names := some (listNames d.dnode), offset := 0 }
    | some _ => d
  let ns := d.names.getD []
  let n0 := ns.length - d.offset
  if n0 = 0 ∧ 0 < limit then (d, ([], some .eof))
  else
    let n := if 0 < limit ∧ (limit.toNat < n0) then limit.toNat else n0
    match readEntriesAcc d.dnode ((ns.drop d.offset).take n) with
    | (hs, none) => ({ d with offset := d.offset + n }, (hs, none))
    | (hs, some (nm, e)) =>
      ({ d with offset := d.offset + hs.length }, (hs, some (.perr ⟨("readdir"), nm, e⟩)))

/-- `Dir.Read`: reading bytes from a directory always fails with a
`fs.PathError` wrapping `fs.ErrInvalid`, reading zero bytes and leaving
the handle untouched. -/
def DirHandle.read (d : DirHandle) (_bufLen : Nat) : Nat × PathErr × DirHandle :=
  (0, ⟨("read"), d.dname, .invalid⟩, d)

/-! ## Order lemmas for the byte-wise string comparison -/

theorem charToNat_inj {c d : Char} (h : c.toNat = d.toNat) : c = d := by
  have hc := Char.ofNat_toNat c
  have hd := Char.ofNat_toNat d
  rw [← hc, ← hd, h]

theorem charListLe_total : ∀ l₁ l₂ : List Char, charListLe l₁ l₂ = true ∨ charListLe l₂ l₁ = true
  | [], _ => by left; rfl
  | _ :: _, [] => by right; rfl
  | c :: cs, d :: ds => by
    rcases Nat.lt_trichotomy c.toNat d.toNat with h | h | h
    · left; simp [charListLe, h]
    · rcases charListLe_total cs ds with ih | ih
      · left; simp [charListLe, h, ih]
      · right; simp [charListLe, h.symm, ih]
    · right; simp [charListLe, h]

theorem charListLe_refl (l : List Char) : charListLe l l = true := by
  induction l with
  | nil => rfl
  | cons c cs ih => simp [charListLe, ih]

theorem charListLe_antisymm : ∀ l₁ l₂ : List Char,
    charListLe l₁ l₂ = true → charListLe l₂ l₁ = true → l₁ = l₂
  | [], [], _, _ => rfl
  | [], _ :: _, _, h₂ => by simp [charListLe] at h₂
  | _ :: _, [], h₁, _ => by simp [charListLe] at h₁
  | c :: cs, d :: ds, h₁, h₂ => by
    rcases Nat.lt_trichotomy c.toNat d.toNat with h | h | h
    · simp [charListLe, h, Nat.lt_asymm h] at h₂
    · have hcd : c = d := charToNat_inj h
      subst hcd
      simp only [charListLe, Nat.lt_irrefl, if_false] at h₁ h₂
      rw [charListLe_antisymm cs ds h₁ h₂]
    · simp [charListLe, h, Nat.lt_asymm h] at h₁

theorem charListLe_trans : ∀ l₁ l₂ l₃ : List Char,
    charListLe l₁ l₂ = true → charListLe l₂ l₃ = true → charListLe l₁ l₃ = true
  | [], _, _, _, _ => rfl
  | _ :: _, [], _, h₁, _ => by simp [charListLe] at h₁
  | _ :: _, _ :: _, [], _, h₂ => by simp [charListLe] at h₂
  | c :: cs, d :: ds, e :: es, h₁, h₂ => by
    rcases Nat.lt_trichotomy c.toNat d.toNat with h | h | h
    · rcases Nat.lt_trichotomy d.toNat e.toNat with h' | h' | h'
      · simp [charListLe, Nat.lt_trans h h']
      · simp [charListLe, h' ▸ h]
      · simp [charListLe, h', Nat.lt_asymm h'] at h₂
    · rcases Nat.lt_trichotomy d.toNat e.toNat with h' | h' | h'
      · simp [charListLe, h ▸ h']
      · have hde : charListLe cs es = true := by
          simp only [charListLe, h, Nat.lt_irrefl, if_false] at h₁
          simp only [charListLe, h', Nat.lt_irrefl, if_false] at h₂
          exact charListLe_trans cs ds es h₁ h₂
        simp [charListLe, h.trans h', hde, Nat.lt_irrefl]
      · simp [charListLe, h', Nat.lt_asymm h'] at h₂
    · simp [charListLe, h, Nat.lt_asymm h] at h₁

theorem strLe_total (s t : String) : strLe s t = true ∨ strLe t s = true :=
  charListLe_total s.data t.data

theorem strLe_refl (s : String) : strLe s s = true := charListLe_refl s.data

theorem strLe_antisymm {s t : String} (h₁ : strLe s t = true) (h₂ : strLe t s = true) :
    s = t := by
  cases s with
  | mk l₁ =>
    cases t with
    | mk l₂ =>
      have : l₁ = l₂ := charListLe_antisymm l₁ l₂ h₁ h₂
      rw [this]

theorem strLe_trans {s t r : String} (h₁ : strLe s t = true) (h₂ : strLe t r = true) :
    strLe s r = true :=
  charListLe_trans s.data t.data r.data h₁ h₂

theorem strLe_of_not_le {s t : String} (h : ¬ strLe s t = true) : strLe t s = true := by
  rcases strLe_total s t with h' | h'
  · exact absurd h' h
  · exact h'

/-! ## Sorting lemmas -/

/-- Keys (link names) of a link list are pairwise distinct. -/
def keysNodup (ls : List (String × UNode)) : Prop := (ls.map Prod.fst).Nodup

/-- Links sorted byte-wise ascending by name. -/
def LinksSorted (ls : List (String × UNode)) : Prop :=
  ls.Pairwise (fun a b => strLe a.1 b.1 = true)

theorem insLink_perm (e : String × UNode) :
    ∀ l : List (String × UNode), (insLink e l).Perm (e :: l)
  | [] => List.Perm.refl _
  | f :: fs => by
    by_cases h : strLe e.1 f.1 = true
    · simp [insLink, h]
    · simp only [insLink, h, if_false]
      exact ((insLink_perm e fs).cons f).trans (List.Perm.swap e f fs)

theorem sortLinks_perm : ∀ l : List (String × UNode), (sortLinks l).Perm l
  | [] => List.Perm.refl _
  | e :: es => ((insLink_perm e (sortLinks es)).trans ((sortLinks_perm es).cons e))

theorem insLink_sorted (e : String × UNode) {l : List (String × UNode)}
    (hs : LinksSorted l) : LinksSorted (insLink e l) := by
  induction l with
  | nil => simp [insLink, LinksSorted]
  | cons f fs ih =>
    rcases hs with - | ⟨hf, hfs⟩
    by_cases h : strLe e.1 f.1 = true
    · simp only [insLink, h, if_true]
      constructor
      · intro x hx
        rcases List.mem_cons.mp hx with rfl | hx'
        · exact h
        · exact strLe_trans h (hf x hx')
      · exact List.Pairwise.cons hf hfs
    · simp only [insLink, h, if_false]
      constructor
      · intro x hx
        have hmem := (insLink_perm e fs).mem_iff.mp hx
        rcases List.mem_cons.mp hmem with rfl | hx'
        · exact strLe_of_not_le h
        · exact hf x hx'
      · exact ih hfs

theorem sortLinks_sorted : ∀ l : List (String × UNode), LinksSorted (sortLinks l)
  | [] => List.Pairwise.nil
  | e :: es => insLink_sorted e (sortLinks_sorted es)

theorem keysNodup_perm {l₁ l₂ : List (String × UNode)} (h : l₁.Perm l₂)
    (hn : keysNodup l₁) : keysNodup l₂ :=
  (h.map Prod.fst).nodup_iff.mp hn

/-- Two sorted link lists that are permutations of each other and have
distinct keys are equal. -/
theorem sorted_keysNodup_unique : ∀ {l₁ l₂ : List (String × UNode)},
    l₁.Perm l₂ → LinksSorted l₁ → LinksSorted l₂ → keysNodup l₁ → l₁ = l₂
  | [], [], _, _, _, _ => rfl
  | [], _ :: _, hp, _, _, _ => absurd hp.symm (by simp)
  | _ :: _, [], hp, _, _, _ => absurd hp (by simp)
  | e₁ :: t₁, e₂ :: t₂, hp, hs₁, hs₂, hn => by
    rcases hs₁ with - | ⟨he₁, ht₁⟩
    rcases hs₂ with - | ⟨he₂, ht₂⟩
    have he : e₁ = e₂ := by
      have h₁₂ : e₁ ∈ e₂ :: t₂ := hp.mem_iff.mp (List.mem_cons_self _ _)
      rcases List.mem_cons.mp h₁₂ with heq | h₁mem
      · exact heq
      · have h₂₁ : e₂ ∈ e₁ :: t₁ := hp.symm.mem_iff.mp (List.mem_cons_self _ _)
        rcases List.mem_cons.mp h₂₁ with heq | h₂mem
        · exact heq.symm
        · have hle₁ : strLe e₁.1 e₂.1 = true := he₁ e₂ h₂mem
          have hle₂ : strLe e₂.1 e₁.1 = true := he₂ e₁ h₁mem
          have hkey : e₁.1 = e₂.1 := strLe_antisymm hle₁ hle₂
          have hn₂ : keysNodup (e₂ :: t₂) := keysNodup_perm hp hn
          rcases hn₂ with - | ⟨hne, -⟩
          have hmem : e₁.1 ∈ t₂.map Prod.fst := List.mem_map_of_mem Prod.fst h₁mem
          exact (hne e₁.1 hmem hkey.symm).elim
    subst he
    have hp' := hp.cons_inv
    rcases hn with - | ⟨-, hnt⟩
    rw [sorted_keysNodup_unique hp' ht₁ ht₂ hnt]

theorem keysNodup_sortLinks {l : List (String × UNode)} (hn : keysNodup l) :
    keysNodup (sortLinks l) :=
  keysNodup_perm (sortLinks_perm l).symm hn

/-- Sorting a link list with distinct keys is invariant under
permutation: this is why the stored hash does not depend on the order
in which `AddChild` received the links. -/
theorem sortLinks_eq_of_perm {l₁ l₂ : List (String × UNode)} (hn : keysNodup l₁)
    (hp : l₁.Perm l₂) : sortLinks l₁ = sortLinks l₂ := by
  have hp' : (sortLinks l₁).Perm (sortLinks l₂) :=
    ((sortLinks_perm l₁).trans hp).trans (sortLinks_perm l₂).symm
  exact sorted_keysNodup_unique hp' (sortLinks_sorted l₁) (sortLinks_sorted l₂)
    (keysNodup_sortLinks hn)

@[simp] theorem assocFind_nil (k : String) : assocFind [] k = none := rfl

theorem assocFind_cons (e : String × UNode) (l : List (String × UNode)) (k : String) :
    assocFind (e :: l) k = if e.1 = k then some e.2 else assocFind l k := by
  by_cases h : e.1 = k
  · simp [assocFind, List.find?, h]
  · simp [assocFind, List.find?, h]

theorem assocFind_eq_none_iff {l : List (String × UNode)} {k : String} :
    assocFind l k = none ↔ k ∉ l.map Prod.fst := by
  induction l with
  | nil => simp
  | cons e es ih =>
    rw [assocFind_cons]
    by_cases h : e.1 = k
    · simp [h]
    · simp only [h, if_false, ih, List.map_cons, List.mem_cons]
      constructor
      · intro hk hmem
        rcases hmem with hk' | hk'
        · exact h hk'.symm
        · exact hk hk'
      · intro hk hk'
        exact hk (Or.inr hk')

theorem assocFind_eq_some_of_mem {l : List (String × UNode)} {k : String} {v : UNode}
    (hn : keysNodup l) (hmem : (k, v) ∈ l) : assocFind l k = some v := by
  induction l with
  | nil => cases hmem
  | cons e es ih =>
    rcases hn with - | ⟨hne, hnt⟩
    rw [assocFind_cons]
    rcases List.mem_cons.mp hmem with heq | hmem'
    · rw [← heq]
      simp
    · have hk : e.1 ≠ k := by
        intro hk
        have : k ∈ es.map Prod.fst := List.mem_map_of_mem Prod.fst hmem'
        exact hne k this hk
      simp only [hk, if_false]
      exact ih hnt hmem'

theorem mem_of_assocFind_eq_some {l : List (String × UNode)} {k : String} {v : UNode}
    (h : assocFind l k = some v) : (k, v) ∈ l := by
  induction l with
  | nil => simp [assocFind] at h
  | cons e es ih =>
    rw [assocFind_cons] at h
    by_cases hk : e.1 = k
    · simp only [hk, if_true, Option.some.injEq] at h
      have he : e = (k, v) := by
        cases e
        simp only at hk h
        rw [hk, h]
      rw [← he]
      exact List.mem_cons_self _ _
    · simp only [hk, if_false] at h
      exact List.mem_cons_of_mem e (ih h)

/-- With distinct keys, `Find` is invariant under permutation of the
link list. -/
theorem assocFind_perm {l₁ l₂ : List (String × UNode)} (hn : keysNodup l₁)
    (hp : l₁.Perm l₂) (k : String) : assocFind l₁ k = assocFind l₂ k := by
  cases h₁ : assocFind l₁ k with
  | some v =>
    have hmem : (k, v) ∈ l₂ := hp.mem_iff.mp (mem_of_assocFind_eq_some h₁)
    exact (assocFind_eq_some_of_mem (keysNodup_perm hp hn) hmem).symm
  | none =>
    have hk : k ∉ l₁.map Prod.fst := assocFind_eq_none_iff.mp h₁
    have hk₂ : k ∉ l₂.map Prod.fst := by
      intro hmem
      exact hk ((hp.map Prod.fst).mem_iff.mpr hmem)
    exact (assocFind_eq_none_iff.mpr hk₂).symm

theorem assocFind_sortLinks {l : List (String × UNode)} (hn : keysNodup l) (k : String) :
    assocFind (sortLinks l) k = assocFind l k :=
  (assocFind_perm hn (sortLinks_perm l).symm k).symm

/-- Folding `AddChild` over links with pairwise-distinct keys avoiding
the accumulator's keys just appends them in order. -/
theorem foldl_addLink_nodup : ∀ (pairs acc : List (String × UNode)),
    keysNodup (acc ++ pairs) →
    pairs.foldl (fun acc e => addLink acc e.1 e.2) acc = acc ++ pairs
  | [], acc, _ => by simp
  | e :: es, acc, hn => by
    have hkey : e.1 ∉ acc.map Prod.fst := by
      intro hmem
      have hnd : ((acc ++ e :: es).map Prod.fst).Nodup := hn
      rw [List.map_append] at hnd
      have hdisj := (List.nodup_append.mp hnd).2.2
      exact hdisj hmem (by simp)
    have hfilter : acc.filter (fun f => !(f.1 = e.1)) = acc := by
      apply List.filter_eq_self.mpr
      intro f hf
      simp only [Bool.not_eq_true', decide_eq_false_iff_not]
      intro hfe
      exact hkey (hfe ▸ List.mem_map_of_mem Prod.fst hf)
    have hstep : addLink acc e.1 e.2 = acc ++ [e] := by
      unfold addLink
      rw [hfilter]
    rw [List.foldl_cons, hstep]
    have hn' : keysNodup ((acc ++ [e]) ++ es) := by
      unfold keysNodup at hn ⊢
      simpa using hn
    rw [foldl_addLink_nodup es (acc ++ [e]) hn']
    simp

/-! ## sort.Strings lemmas -/

/-- Names sorted byte-wise ascending. -/
def StrSorted (l : List String) : Prop := l.Pairwise (fun a b => strLe a b = true)

theorem insStr_perm (s : String) : ∀ l : List String, (insStr s l).Perm (s :: l)
  | [] => List.Perm.refl _
  | t :: ts => by
    by_cases h : strLe s t = true
    · simp [insStr, h]
    · simp only [insStr, h, if_false]
      exact ((insStr_perm s ts).cons t).trans (List.Perm.swap s t ts)

theorem sortStrings_perm : ∀ l : List String, (sortStrings l).Perm l
  | [] => List.Perm.refl _
  | s :: ss => (insStr_perm s (sortStrings ss)).trans ((sortStrings_perm ss).cons s)

theorem insStr_sorted (s : String) {l : List String} (hs : StrSorted l) :
    StrSorted (insStr s l) := by
  induction l with
  | nil => simp [insStr, StrSorted]
  | cons t ts ih =>
    rcases hs with - | ⟨ht, hts⟩
    by_cases h : strLe s t = true
    · simp only [insStr, h, if_true]
      constructor
      · intro x hx
        rcases List.mem_cons.mp hx with rfl | hx'
        · exact h
        · exact strLe_trans h (ht x hx')
      · exact List.Pairwise.cons ht hts
    · simp only [insStr, h, if_false]
      constructor
      · intro x hx
        have hmem := (insStr_perm s ts).mem_iff.mp hx
        rcases List.mem_cons.mp hmem with rfl | hx'
        · exact strLe_of_not_le h
        · exact ht x hx'
      · exact ih hts

theorem sortStrings_sorted : ∀ l : List String, StrSorted (sortStrings l)
  | [] => List.Pairwise.nil
  | s :: ss => insStr_sorted s (sortStrings_sorted ss)

/-! ## The canonical insertion on stored directory values

`insertU segs u t` describes, purely on stored node values, the effect a
`WriteFileNode` at path `segs` followed by a flush has on the flushed
value of the surrounding tree (proved below as the simulation lemma):
replace-or-append the link at each level, serialize sorted. -/

def insertU : List String → UNode → UNode → UNode
  | [], _, t => t
  | [last], u, t =>
    .dir (sortLinks (((t.linksOf).filter (fun e => !(e.1 = last))) ++ [(last, u)]))
  | s :: s2 :: rest, u, t =>
    .dir (sortLinks (((t.linksOf).filter (fun e => !(e.1 = s))) ++
      [(s, insertU (s2 :: rest) u
        (match assocFind t.linksOf s with
         | some t' => t'
         | none => .dir []))]))

/-- Resolution on stored node values: follow the first link with each
segment's name; files have no named links, so any descent through a
file misses. -/
def lookupU : UNode → List String → Option UNode
  | t, [] => some t
  | t, s :: rest =>
    match assocFind t.linksOf s with
    | some c => lookupU c rest
    | none => none

/-- Every directory node reachable in the value has pairwise-distinct
link names. -/
inductive NodupU : UNode → Prop where
  | file (i : Nat) : NodupU (.file i)
  | dir {ls : List (String × UNode)} : keysNodup ls → (∀ e ∈ ls, NodupU e.2) →
      NodupU (.dir ls)

theorem nodupU_of_isFile {u : UNode} (h : u.isFile = true) : NodupU u := by
  cases u with
  | dir ls => simp [UNode.isFile] at h
  | file i => exact NodupU.file i

theorem keysNodup_filter_append {ls : List (String × UNode)} (hn : keysNodup ls)
    (s : String) (u : UNode) :
    keysNodup ((ls.filter (fun e => !(e.1 = s))) ++ [(s, u)]) := by
  unfold keysNodup at hn ⊢
  rw [List.map_append, List.nodup_append]
  refine ⟨?_, by simp, ?_⟩
  · exact hn.sublist ((List.filter_sublist ls).map Prod.fst)
  · intro a ha hb
    simp only [List.map_cons, List.map_nil, List.mem_singleton] at hb
    subst hb
    rcases List.mem_map.mp ha with ⟨e, he, hfst⟩
    have hne := List.of_mem_filter he
    simp only [Bool.not_eq_true', decide_eq_false_iff_not] at hne
    exact hne hfst

theorem NodupU.keys {t : UNode} (h : NodupU t) : keysNodup t.linksOf := by
  cases h with
  | file i => simp [UNode.linksOf, keysNodup]
  | dir hk hc => exact hk

theorem NodupU.child {t : UNode} (h : NodupU t) {e : String × UNode}
    (he : e ∈ t.linksOf) : NodupU e.2 := by
  cases h with
  | file i => simp [UNode.linksOf] at he
  | dir hk hc => exact hc e he

theorem assocFind_append (l₁ l₂ : List (String × UNode)) (k : String) :
    assocFind (l₁ ++ l₂) k =
      match assocFind l₁ k with
      | some v => some v
      | none => assocFind l₂ k := by
  induction l₁ with
  | nil => simp
  | cons e es ih =>
    rw [List.cons_append, assocFind_cons, assocFind_cons]
    by_cases h : e.1 = k
    · simp [h]
    · simp only [h, if_false]
      exact ih

theorem assocFind_filter_ne {k s : String} (hne : k ≠ s) (l : List (String × UNode)) :
    assocFind (l.filter (fun e => !(e.1 = s))) k = assocFind l k := by
  induction l with
  | nil => simp
  | cons e es ih =>
    by_cases h : e.1 = s
    · rw [List.filter_cons_of_neg (by simp [h]), assocFind_cons]
      have : ¬ e.1 = k := by rw [h]; exact fun hh => hne hh.symm
      simp only [this, if_false]
      exact ih
    · rw [List.filter_cons_of_pos (by simp [h]), assocFind_cons, assocFind_cons]
      by_cases h₂ : e.1 = k
      · simp [h₂]
      · simp only [h₂, if_false]
        exact ih

theorem assocFind_filter_self (l : List (String × UNode)) (s : String) :
    assocFind (l.filter (fun e => !(e.1 = s))) s = none := by
  rw [assocFind_eq_none_iff]
  intro hmem
  rcases List.mem_map.mp hmem with ⟨e, he, hfst⟩
  have hne := List.of_mem_filter he
  simp only [Bool.not_eq_true', decide_eq_false_iff_not] at hne
  exact hne hfst

/-- The link list `insertU` produces at each level looks up as a
replace-or-append of the original. -/
theorem assocFind_insert_links {ls : List (String × UNode)} (hn : keysNodup ls)
    (s : String) (x : UNode) (k : String) :
    assocFind (sortLinks ((ls.filter (fun e => !(e.1 = s))) ++ [(s, x)])) k =
      if k = s then some x else assocFind ls k := by
  have hnL := keysNodup_filter_append hn s x
  rw [assocFind_sortLinks hnL, assocFind_append]
  by_cases h : k = s
  · subst h
    rw [assocFind_filter_self]
    simp [assocFind_cons]
  · rw [assocFind_filter_ne h]
    cases hfind : assocFind ls k with
    | some v => simp [h]
    | none =>
      simp only [h, if_false]
      rw [assocFind_cons]
      have : ¬ s = k := fun hh => h hh.symm
      simp [this]

theorem NodupU_insertU : ∀ (segs : List String) (u t : UNode), NodupU t → NodupU u →
    NodupU (insertU segs u t)
  | [], _, t, ht, _ => ht
  | [last], u, t, ht, hu => by
    rw [insertU]
    constructor
    · exact keysNodup_sortLinks (keysNodup_filter_append ht.keys last u)
    · intro e he
      have hmem := (sortLinks_perm _).mem_iff.mp he
      rcases List.mem_append.mp hmem with hf | hl
      · exact ht.child (List.mem_of_mem_filter hf)
      · rcases List.mem_singleton.mp hl with rfl
        exact hu
  | s :: s2 :: rest, u, t, ht, hu => by
    rw [insertU]
    constructor
    · exact keysNodup_sortLinks (keysNodup_filter_append ht.keys s _)
    · intro e he
      have hmem := (sortLinks_perm _).mem_iff.mp he
      rcases List.mem_append.mp hmem with hf | hl
      · exact ht.child (List.mem_of_mem_filter hf)
      · rcases List.mem_singleton.mp hl with rfl
        have hsub : NodupU (match assocFind t.linksOf s with
            | some t' => t'
            | none => .dir []) := by
          cases hfind : assocFind t.linksOf s with
          | some t' => exact ht.child (mem_of_assocFind_eq_some hfind)
          | none => exact NodupU.dir (by simp [keysNodup]) (by simp)
        exact NodupU_insertU (s2 :: rest) u _ hsub hu

theorem lookupU_insertU_self : ∀ (segs : List String) (u t : UNode), NodupU t →
    lookupU (insertU segs u t) segs = some u ∨ segs = []
  | [], _, _, _ => Or.inr rfl
  | [last], u, t, ht => by
    left
    rw [insertU, lookupU]
    have := assocFind_insert_links ht.keys last u last
    simp only [UNode.linksOf] at this ⊢
    rw [this]
    simp [lookupU]
  | s :: s2 :: rest, u, t, ht => by
    left
    rw [insertU, lookupU]
    have := assocFind_insert_links ht.keys s
      (insertU (s2 :: rest) u (match assocFind t.linksOf s with
        | some t' => t'
        | none => .dir [])) s
    simp only [UNode.linksOf, eq_self_iff_true, if_true] at this ⊢
    rw [this]
    have hsub : NodupU (match assocFind t.linksOf s with
        | some t' => t'
        | none => .dir []) := by
      cases hfind : assocFind t.linksOf s with
      | some t' => exact ht.child (mem_of_assocFind_eq_some hfind)
      | none => exact NodupU.dir (by simp [keysNodup]) (by simp)
    rcases lookupU_insertU_self (s2 :: rest) u _ hsub with h | h
    · exact h
    · cases h

@[simp] theorem linksOf_dir (ls : List (String × UNode)) : (UNode.dir ls).linksOf = ls := rfl

@[simp] theorem linksOf_file (i : Nat) : (UNode.file i).linksOf = [] := rfl

@[simp] theorem lookupU_nil (t : UNode) : lookupU t [] = some t := rfl

theorem lookupU_cons (t : UNode) (s : String) (rest : List String) :
    lookupU t (s :: rest) =
      match assocFind t.linksOf s with
      | some c => lookupU c rest
      | none => none := by
  rw [lookupU]

/-- Inserting at a path that neither extends nor is extended by `q`
does not change resolution at `q`. -/
theorem lookupU_insertU_frame : ∀ (p q : List String) (u t : UNode), NodupU t →
    p ≠ [] → q ≠ [] → ¬ p <+: q → ¬ q <+: p →
    lookupU (insertU p u t) q = lookupU t q
  | [], _, _, _, _, hp, _, _, _ => absurd rfl hp
  | _ :: _, [], _, _, _, _, hq, _, _ => absurd rfl hq
  | [a], b :: q', u, t, ht, _, _, hpq, _ => by
    have hab : a ≠ b := by
      intro h
      subst h
      exact hpq ⟨q', rfl⟩
    rw [insertU, lookupU_cons, lookupU_cons]
    simp only [linksOf_dir]
    rw [assocFind_insert_links ht.keys a u b, if_neg (fun h => hab h.symm)]
  | a :: a2 :: p', b :: q', u, t, ht, _, _, hpq, hqp => by
    by_cases hab : a = b
    · subst hab
      have hq' : q' ≠ [] := by
        intro h
        subst h
        exact hqp ⟨a2 :: p', rfl⟩
      have hp'q' : ¬ (a2 :: p') <+: q' := by
        intro h
        rcases h with ⟨r, hr⟩
        exact hpq ⟨r, by rw [List.cons_append, hr]⟩
      have hq'p' : ¬ q' <+: (a2 :: p') := by
        intro h
        rcases h with ⟨r, hr⟩
        exact hqp ⟨r, by rw [List.cons_append, hr]⟩
      rw [insertU, lookupU_cons, lookupU_cons]
      simp only [linksOf_dir]
      rw [assocFind_insert_links ht.keys a _ a, if_pos rfl]
      cases hfind : assocFind t.linksOf a with
      | some c =>
        have hc : NodupU c := ht.child (mem_of_assocFind_eq_some hfind)
        exact lookupU_insertU_frame (a2 :: p') q' u c hc (by simp) hq' hp'q' hq'p'
      | none =>
        have hnil : NodupU (UNode.dir []) := NodupU.dir (by simp [keysNodup]) (by simp)
        show lookupU (insertU (a2 :: p') u (UNode.dir [])) q' = none
        rw [lookupU_insertU_frame (a2 :: p') q' u (.dir []) hnil (by simp) hq' hp'q' hq'p']
        cases q' with
        | nil => exact absurd rfl hq'
        | cons b' q'' =>
          rw [lookupU_cons]
          simp
    · rw [insertU, lookupU_cons, lookupU_cons]
      simp only [linksOf_dir]
      rw [assocFind_insert_links ht.keys a _ b, if_neg (fun h => hab h.symm)]

/-- All writes of a list applied to a value, left to right. -/
def insertAll (t : UNode) (ws : List (List String × UNode)) : UNode :=
  ws.foldl (fun t w => insertU w.1 w.2 t) t

@[simp] theorem insertAll_nil (t : UNode) : insertAll t [] = t := rfl

@[simp] theorem insertAll_cons (t : UNode) (w : List String × UNode)
    (ws : List (List String × UNode)) :
    insertAll t (w :: ws) = insertAll (insertU w.1 w.2 t) ws := rfl

theorem NodupU_insertAll : ∀ (ws : List (List String × UNode)) (t : UNode), NodupU t →
    (∀ w ∈ ws, NodupU w.2) → NodupU (insertAll t ws)
  | [], _, ht, _ => ht
  | w :: ws, t, ht, hw => by
    rw [insertAll_cons]
    exact NodupU_insertAll ws _ (NodupU_insertU w.1 w.2 t ht (hw w (by simp)))
      (fun w' hw' => hw w' (List.mem_cons_of_mem w hw'))

theorem lookupU_insertAll_frame : ∀ (ws : List (List String × UNode)) (t : UNode)
    (q : List String), NodupU t → (∀ w ∈ ws, NodupU w.2) → q ≠ [] →
    (∀ w ∈ ws, w.1 ≠ [] ∧ ¬ w.1 <+: q ∧ ¬ q <+: w.1) →
    lookupU (insertAll t ws) q = lookupU t q
  | [], _, _, _, _, _, _ => rfl
  | w :: ws, t, q, ht, hnd, hq, hws => by
    rw [insertAll_cons]
    rcases hws w (by simp) with ⟨hne, hpq, hqp⟩
    rw [lookupU_insertAll_frame ws _ q (NodupU_insertU w.1 w.2 t ht (hnd w (by simp)))
      (fun w' hw' => hnd w' (List.mem_cons_of_mem w hw')) hq
      (fun w' hw' => hws w' (List.mem_cons_of_mem w hw'))]
    exact lookupU_insertU_frame w.1 q w.2 t ht hne hq hpq hqp

/-- After inserting a pairwise prefix-free list of writes, resolution
at each written path yields that write's node. -/
theorem lookupU_insertAll_mem : ∀ (ws : List (List String × UNode)) (t : UNode)
    (w₀ : List String × UNode), w₀ ∈ ws → NodupU t → (∀ w ∈ ws, NodupU w.2) →
    (∀ w ∈ ws, w.1 ≠ []) →
    ws.Pairwise (fun a b => ¬ a.1 <+: b.1 ∧ ¬ b.1 <+: a.1) →
    lookupU (insertAll t ws) w₀.1 = some w₀.2
  | [], _, _, hmem, _, _, _, _ => absurd hmem (by simp)
  | w :: ws, t, w₀, hmem, ht, hnd, hne, hpw => by
    rw [insertAll_cons]
    rcases List.pairwise_cons.mp hpw with ⟨hw, hpw'⟩
    rcases List.mem_cons.mp hmem with heq | hmem'
    · subst heq
      have hself : lookupU (insertU w₀.1 w₀.2 t) w₀.1 = some w₀.2 := by
        rcases lookupU_insertU_self w₀.1 w₀.2 t ht with h | h
        · exact h
        · exact absurd h (hne w₀ (by simp))
      rw [lookupU_insertAll_frame ws _ w₀.1
        (NodupU_insertU w₀.1 w₀.2 t ht (hnd w₀ (by simp)))
        (fun w' hw' => hnd w' (List.mem_cons_of_mem _ hw')) (hne w₀ (by simp))
        (fun w' hw' => ⟨hne w' (List.mem_cons_of_mem _ hw'), (hw w' hw').2, (hw w' hw').1⟩)]
      exact hself
    · exact lookupU_insertAll_mem ws _ w₀ hmem'
        (NodupU_insertU w.1 w.2 t ht (hnd w (by simp)))
        (fun w' hw' => hnd w' (List.mem_cons_of_mem _ hw'))
        (fun w' hw' => hne w' (List.mem_cons_of_mem _ hw')) hpw'

/-! ## walkParts and lookupU -/

theorem walkParts_single (ls : List (String × UNode)) (seg : String) :
    walkParts ls [seg] =
      match assocFind ls seg with
      | none => .error .notExist
      | some child => .ok (child, seg) := by
  rw [walkParts]

theorem walkParts_cons₂ (ls : List (String × UNode)) (seg s2 : String)
    (rest : List String) :
    walkParts ls (seg :: s2 :: rest) =
      match assocFind ls seg with
      | none => .error .notExist
      | some child =>
        match child with
        | .dir ls₂ => walkParts ls₂ (s2 :: rest)
        | .file _ => .error .invalid := by
  rw [walkParts]
  intro h
  cases h

/-- A successful value-level resolution to `u` is exactly a successful
`locateNode` walk returning `u` together with the terminal segment. -/
theorem walkParts_ok_of_lookupU : ∀ (parts : List String) (ls : List (String × UNode))
    (u : UNode), parts ≠ [] → lookupU (.dir ls) parts = some u →
    ∃ nm, walkParts ls parts = .ok (u, nm)
  | [], _, _, hne, _ => absurd rfl hne
  | [seg], ls, u, _, hl => by
    rw [lookupU_cons] at hl
    simp only [linksOf_dir] at hl
    cases hfind : assocFind ls seg with
    | some c =>
      rw [hfind] at hl
      simp only [lookupU_nil, Option.some.injEq] at hl
      subst hl
      rw [walkParts_single, hfind]
      exact ⟨seg, rfl⟩
    | none =>
      rw [hfind] at hl
      cases hl
  | seg :: s2 :: rest, ls, u, _, hl => by
    rw [lookupU_cons] at hl
    simp only [linksOf_dir] at hl
    cases hfind : assocFind ls seg with
    | some c =>
      rw [hfind] at hl
      cases c with
      | dir ls₂ =>
        rcases walkParts_ok_of_lookupU (s2 :: rest) ls₂ u (List.cons_ne_nil s2 rest) hl with ⟨nm, hw⟩
        rw [walkParts_cons₂, hfind]
        exact ⟨nm, hw⟩
      | file i =>
        have hl₂ : lookupU (UNode.file i) (s2 :: rest) = some u := hl
        rw [lookupU_cons] at hl₂
        simp only [linksOf_file, assocFind_nil] at hl₂
        cases hl₂
    | none =>
      rw [hfind] at hl
      cases hl

/-- Walking a path that starts with a prefix resolving to a directory
continues the walk from that directory. -/
theorem walkParts_append : ∀ (pre : List String) (L d : List (String × UNode))
    (s : String) (rest : List String), lookupU (.dir L) pre = some (.dir d) →
    walkParts L (pre ++ s :: rest) = walkParts d (s :: rest)
  | [], L, d, s, rest, h => by
    simp only [lookupU_nil, Option.some.injEq] at h
    cases h
    rfl
  | a :: pre', L, d, s, rest, h => by
    rw [lookupU_cons] at h
    simp only [linksOf_dir] at h
    cases hfind : assocFind L a with
    | none =>
      rw [hfind] at h
      cases h
    | some c =>
      rw [hfind] at h
      cases pre' with
      | nil =>
        simp only [lookupU_nil, Option.some.injEq] at h
        subst h
        rw [List.cons_append, List.nil_append, walkParts_cons₂, hfind]
      | cons a2 pre'' =>
        cases c with
        | dir ls₂ =>
          rw [List.cons_append, List.cons_append, walkParts_cons₂, hfind,
            ← List.cons_append]
          exact walkParts_append (a2 :: pre'') ls₂ d s rest h
        | file i =>
          have h₂ : lookupU (UNode.file i) (a2 :: pre'') = some (UNode.dir d) := h
          rw [lookupU_cons] at h₂
          simp only [linksOf_file, assocFind_nil] at h₂
          cases h₂

/-! ## Path string lemmas -/

theorem splitChars_ne_nil : ∀ l : List Char, splitChars l ≠ []
  | [] => by simp [splitChars]
  | c :: cs => by
    rw [splitChars]
    by_cases h : c = '/'
    · simp [h]
    · simp only [h, if_false]
      cases hs : splitChars cs with
      | nil => simp
      | cons s rest => simp

theorem splitChars_ne_singleton_nil : ∀ l : List Char, l ≠ [] → splitChars l ≠ [[]]
  | [], h, _ => h rfl
  | c :: cs, _, hcontra => by
    rw [splitChars] at hcontra
    by_cases h : c = '/'
    · simp only [h, if_true] at hcontra
      have : splitChars cs = [] := by
        injection hcontra with h₁ h₂
      exact splitChars_ne_nil cs this
    · simp only [h, if_false] at hcontra
      cases hs : splitChars cs with
      | nil =>
        rw [hs] at hcontra
        injection hcontra with h₁ h₂
        cases h₁
      | cons s rest =>
        rw [hs] at hcontra
        injection hcontra with h₁ h₂
        cases h₁

theorem getLast?_cons_ne_nil {α : Type} (a : α) {l : List α} (h : l ≠ []) :
    (a :: l).getLast? = l.getLast? := by
  cases l with
  | nil => exact absurd rfl h
  | cons b bs => rfl

theorem mem_splitChars_of_head_slash : ∀ {l : List Char}, l.head? = some '/' →
    [] ∈ splitChars l := by
  intro l h
  cases l with
  | nil => cases h
  | cons c cs =>
    simp only [List.head?_cons, Option.some.injEq] at h
    rw [splitChars]
    simp [h]

theorem getLast?_splitChars_of_last_slash : ∀ {l : List Char}, l.getLast? = some '/' →
    (splitChars l).getLast? = some []
  | [], h => by cases h
  | [c], h => by
    simp only [List.getLast?_singleton, Option.some.injEq] at h
    subst h
    rfl
  | c :: c2 :: cs, h => by
    have hne : (c2 :: cs) ≠ ([] : List Char) := by simp
    rw [getLast?_cons_ne_nil c hne] at h
    have ih := getLast?_splitChars_of_last_slash h
    rw [splitChars]
    by_cases hc : c = '/'
    · simp only [hc, if_true]
      rw [getLast?_cons_ne_nil _ (splitChars_ne_nil (c2 :: cs))]
      exact ih
    · simp only [hc, if_false]
      cases hs : splitChars (c2 :: cs) with
      | nil => exact absurd hs (splitChars_ne_nil (c2 :: cs))
      | cons s rest =>
        cases rest with
        | nil =>
          rw [hs] at ih
          simp only [List.getLast?_singleton, Option.some.injEq] at ih
          subst ih
          exact absurd hs (splitChars_ne_singleton_nil (c2 :: cs) (by simp))
        | cons r rest' =>
          rw [hs] at ih
          rw [getLast?_cons_ne_nil _ (by simp : (r :: rest') ≠ [])] at ih ⊢
          exact ih

theorem empty_mem_splitOnSlash_iff {p : String} :
    ("") ∈ splitOnSlash p ↔ [] ∈ splitChars p.data := by
  unfold splitOnSlash
  rw [List.mem_map]
  constructor
  · rintro ⟨l, hl, hmk⟩
    have : l = [] := by
      have := congrArg String.data hmk
      simpa using this
    rw [← this]
    exact hl
  · intro h
    exact ⟨[], h, rfl⟩

/-- For a path none of whose segments is empty, `strings.Trim(p, "/")`
leaves the path unchanged. -/
theorem trimSlash_eq_self {p : String} (h : ("") ∉ splitOnSlash p) : trimSlash p = p := by
  have hmem : [] ∉ splitChars p.data := fun hc => h (empty_mem_splitOnSlash_iff.mpr hc)
  have hhead : p.data.head? ≠ some '/' := fun hc => hmem (mem_splitChars_of_head_slash hc)
  have hlast : p.data.getLast? ≠ some '/' := by
    intro hc
    have hg := getLast?_splitChars_of_last_slash hc
    have hmemo : ([] : List Char) ∈ (splitChars p.data).getLast? := Option.mem_def.mpr hg
    rcases List.mem_getLast?_eq_getLast hmemo with ⟨hne, heq⟩
    apply hmem
    rw [heq]
    exact List.getLast_mem hne
  have hdrop₁ : p.data.dropWhile (fun c => c = '/') = p.data := by
    cases hd : p.data with
    | nil => rfl
    | cons c cs =>
      have hc : ¬ (c = '/') := by
        intro hc
        apply hhead
        rw [hd, hc]
        rfl
      rw [List.dropWhile_cons]
      simp [hc]
  have hdrop₂ : (p.data.reverse).dropWhile (fun c => c = '/') = p.data.reverse := by
    cases hr : p.data.reverse with
    | nil => rfl
    | cons c cs =>
      have hc : ¬ (c = '/') := by
        intro hc
        apply hlast
        rw [← List.head?_reverse, hr, hc]
        rfl
      rw [List.dropWhile_cons]
      simp [hc]
  unfold trimSlash
  rw [hdrop₁, hdrop₂, List.reverse_reverse]

theorem splitOnSlash_ne_nil (p : String) : splitOnSlash p ≠ [] := by
  unfold splitOnSlash
  intro h
  exact splitChars_ne_nil p.data (List.map_eq_nil_iff.mp h)

/-- A path all of whose segments are nonempty and none of which is `.`
or `..` passes `fs.ValidPath`. -/
theorem validPath_of_segs {p : String}
    (h : ∀ s ∈ splitOnSlash p, s ≠ ("") ∧ s ≠ (".") ∧ s ≠ ("..")) :
    validPath p = true := by
  unfold validPath
  by_cases hdot : p = "."
  · simp [hdot]
  · simp only [hdot, if_false, List.all_eq_true]
    intro s hs
    rcases h s hs with ⟨h₁, h₂, h₃⟩
    simp [h₁, h₂, h₃]

theorem ne_dot_of_segs {p : String}
    (h : ∀ s ∈ splitOnSlash p, s ≠ ("") ∧ s ≠ (".") ∧ s ≠ ("..")) : p ≠ (".") := by
  intro hp
  subst hp
  have : splitOnSlash (".") = [(".")] := by decide
  rcases h (".") (by rw [this]; simp) with ⟨-, h₂, -⟩
  exact h₂ rfl

theorem ne_singleton_empty_of_segs {p : String}
    (h : ∀ s ∈ splitOnSlash p, s ≠ ("") ∧ s ≠ (".") ∧ s ≠ ("..")) :
    splitOnSlash p ≠ [("")] := by
  intro hp
  rcases h ("") (by rw [hp]; simp) with ⟨h₁, -, -⟩
  exact h₁ rfl

/-! ## Builder tree lemmas -/

/-- The scan of `fsnode.findOrAddChild`: first child with the name. -/
def findChild (cs : List FsNode) (s : String) : Option FsNode :=
  cs.find? (fun c => c.name = s)

@[simp] theorem findChild_nil (s : String) : findChild [] s = none := rfl

theorem findChild_cons (c : FsNode) (cs : List FsNode) (s : String) :
    findChild (c :: cs) s = if c.name = s then some c else findChild cs s := by
  by_cases h : c.name = s
  · simp [findChild, List.find?, h]
  · simp [findChild, List.find?, h]

theorem findChild_eq_none_iff {cs : List FsNode} {s : String} :
    findChild cs s = none ↔ s ∉ cs.map FsNode.name := by
  induction cs with
  | nil => simp
  | cons c cs ih =>
    rw [findChild_cons]
    by_cases h : c.name = s
    · simp [h]
    · simp only [h, if_false, ih, List.map_cons, List.mem_cons]
      constructor
      · intro hk hmem
        rcases hmem with hk' | hk'
        · exact h hk'.symm
        · exact hk hk'
      · intro hk hk'
        exact hk (Or.inr hk')

theorem updFirst_not_found {cs : List FsNode} {s : String} (f : FsNode → FsNode)
    (h : findChild cs s = none) : updFirst cs s f = cs ++ [f (.mk s none [])] := by
  induction cs with
  | nil => rfl
  | cons c cs ih =>
    rw [findChild_cons] at h
    by_cases hc : c.name = s
    · simp [hc] at h
    · rw [updFirst]
      simp only [hc, if_false]
      rw [ih (by simpa [hc] using h)]
      rfl

theorem updFirst_found : ∀ {cs : List FsNode} {s : String} {c : FsNode}
    (f : FsNode → FsNode), findChild cs s = some c →
    ∃ pre post, cs = pre ++ c :: post ∧ c.name = s ∧ (∀ x ∈ pre, x.name ≠ s) ∧
      updFirst cs s f = pre ++ f c :: post
  | [], s, c, f, h => by simp at h
  | c₀ :: cs, s, c, f, h => by
    rw [findChild_cons] at h
    by_cases hc : c₀.name = s
    · simp only [hc, if_true, Option.some.injEq] at h
      subst h
      refine ⟨[], cs, rfl, hc, by simp, ?_⟩
      rw [updFirst]
      simp [hc]
    · simp only [hc, if_false] at h
      rcases updFirst_found f h with ⟨pre, post, hcs, hname, hpre, hupd⟩
      refine ⟨c₀ :: pre, post, by rw [hcs]; rfl, hname, ?_, ?_⟩
      · intro x hx
        rcases List.mem_cons.mp hx with rfl | hx'
        · exact hc
        · exact hpre x hx'
      · rw [updFirst]
        simp only [hc, if_false]
        rw [hupd]
        rfl

@[simp] theorem unpack_open {n : FsNode} (h : n.cid = none) : unpack n = n := by
  unfold unpack
  rw [h]

theorem unpack_sealed (nm : String) (u : UNode) (cs : List FsNode) :
    unpack (.mk nm (some u) cs) =
      .mk nm none ((u.linksOf).map (fun e => FsNode.mk e.1 (some e.2) [])) := rfl

@[simp] theorem unpack_cid (n : FsNode) : (unpack n).cid = none := by
  unfold unpack
  cases h : n.cid with
  | none => rw [h]
  | some u => rfl

theorem addChild_open (nm : String) (cs : List FsNode) (c : FsNode) :
    addChild (.mk nm none cs) c = .mk nm none (cs ++ [c]) := by
  cases cs with
  | nil => rfl
  | cons c₀ cs' => rfl

/-- The `(name, built node)` pair a child contributes at flush time. -/
def pairOf (c : FsNode) : String × UNode := (c.name, buildVal c)

theorem buildChildren_pairs : ∀ cs : List FsNode, (buildChildren cs).1 = cs.map pairOf
  | [] => by simp
  | c :: cs => by
    rw [buildChildren_cons]
    simp only [List.map_cons]
    rw [buildChildren_pairs cs]
    rfl

theorem keys_map_pairOf (cs : List FsNode) :
    (cs.map pairOf).map Prod.fst = cs.map FsNode.name := by
  induction cs with
  | nil => rfl
  | cons c cs ih => simp [pairOf, ih]

@[simp] theorem buildVal_sealed (nm : String) (u : UNode) (cs : List FsNode) :
    buildVal (.mk nm (some u) cs) = u := by
  unfold buildVal
  rw [buildNode_sealed]

/-- Flushed value of an open node whose children carry distinct names:
the `AddChild` fold deduplicates nothing and the serializer just sorts. -/
theorem buildVal_open_nodup {nm : String} {cs : List FsNode}
    (hn : (cs.map FsNode.name).Nodup) :
    buildVal (.mk nm none cs) = .dir (sortLinks (cs.map pairOf)) := by
  unfold buildVal
  rw [buildNode_open, buildChildren_pairs]
  have hkeys : keysNodup ([] ++ cs.map pairOf) := by
    unfold keysNodup
    rw [List.nil_append, keys_map_pairOf]
    exact hn
  rw [foldl_addLink_nodup (cs.map pairOf) [] hkeys, List.nil_append]

theorem filter_ne_of_not_mem_keys {l : List (String × UNode)} {s : String}
    (h : s ∉ l.map Prod.fst) : l.filter (fun e => !(e.1 = s)) = l := by
  apply List.filter_eq_self.mpr
  intro e he
  simp only [Bool.not_eq_true', decide_eq_false_iff_not]
  intro hes
  exact h (hes ▸ List.mem_map_of_mem Prod.fst he)

/-- `assocFind` over the built pairs is `findChild` followed by flush. -/
theorem assocFind_map_pairOf : ∀ (cs : List FsNode) (s : String),
    assocFind (cs.map pairOf) s = (findChild cs s).map buildVal
  | [], _ => rfl
  | c :: cs, s => by
    rw [List.map_cons, assocFind_cons, findChild_cons]
    by_cases h : c.name = s
    · simp [pairOf, h]
    · simp only [pairOf, h, if_false]
      exact assocFind_map_pairOf cs s

/-- The invariant the builder tree satisfies throughout a prefix-free
write workload from a fresh builder: sealed leaves hold file nodes,
open nodes carry distinct child names. -/
inductive GoodTree : FsNode → Prop where
  | leaf (nm : String) (u : UNode) (cs : List FsNode) : u.isFile = true →
      GoodTree (.mk nm (some u) cs)
  | dirn (nm : String) (cs : List FsNode) : (cs.map FsNode.name).Nodup →
      (∀ c ∈ cs, GoodTree c) → GoodTree (.mk nm none cs)

/-- Freshness of a write path in the builder tree: the descent stays on
open nodes and the final name is absent from its parent. -/
inductive CanW : FsNode → List String → Prop where
  | last (n : FsNode) (s : String) : n.cid = none → findChild n.children s = none →
      CanW n [s]
  | stepNew (n : FsNode) (s s2 : String) (rest : List String) : n.cid = none →
      findChild n.children s = none → CanW n (s :: s2 :: rest)
  | stepOld (n : FsNode) (s s2 : String) (rest : List String) (c : FsNode) :
      n.cid = none → findChild n.children s = some c → CanW c (s2 :: rest) →
      CanW n (s :: s2 :: rest)

theorem CanW_cid {n : FsNode} {segs : List String} (h : CanW n segs) : n.cid = none := by
  cases h with
  | last _ _ hc _ => exact hc
  | stepNew _ _ _ _ hc _ => exact hc
  | stepOld _ _ _ _ _ hc _ _ => exact hc

theorem CanW_fresh (s : String) : ∀ segs : List String, segs ≠ [] →
    CanW (.mk s none []) segs
  | [], h => absurd rfl h
  | [s₁], _ => CanW.last _ s₁ rfl (by simp)
  | s₁ :: s₂ :: rest, _ => CanW.stepNew _ s₁ s₂ rest rfl (by simp)

theorem writeSegs_single (last : String) (u : UNode) (n : FsNode) :
    writeSegs [last] u n = addChild (unpack n) (.mk last (some u) []) := rfl

theorem writeSegs_cons₂_open (s s2 : String) (rest : List String) (u : UNode)
    (nm : String) (cs : List FsNode) :
    writeSegs (s :: s2 :: rest) u (.mk nm none cs) =
      .mk nm none (updFirst cs s (writeSegs (s2 :: rest) u)) := rfl

theorem unpack_name (n : FsNode) : (unpack n).name = n.name := by
  unfold unpack
  cases h : n.cid with
  | none => rfl
  | some u => rfl

theorem addChild_name (n : FsNode) (c : FsNode) : (addChild n c).name = n.name := by
  unfold addChild
  cases h : n.children with
  | nil => rfl
  | cons c₀ cs => rfl

theorem writeSegs_name : ∀ (segs : List String) (u : UNode) (n : FsNode),
    (writeSegs segs u n).name = n.name
  | [], _, _ => rfl
  | [last], u, n => by
    rw [writeSegs_single, addChild_name, unpack_name]
  | s :: s2 :: rest, u, n => by
    have hgoal : writeSegs (s :: s2 :: rest) u n =
        match unpack n with
        | FsNode.mk nm c cs => FsNode.mk nm c (updFirst cs s (writeSegs (s2 :: rest) u)) :=
      rfl
    rw [hgoal]
    cases h : unpack n with
    | mk nm c cs =>
      have hn := unpack_name n
      rw [h] at hn
      simpa using hn

theorem goodTree_children {nm : String} {cs : List FsNode}
    (h : GoodTree (.mk nm none cs)) :
    (cs.map FsNode.name).Nodup ∧ ∀ c ∈ cs, GoodTree c := by
  cases h with
  | dirn _ _ hn hc => exact ⟨hn, hc⟩

/-- A prefix-free fresh write preserves the builder tree invariant. -/
theorem GoodTree_writeSegs : ∀ (segs : List String) (u : UNode) (n : FsNode),
    GoodTree n → CanW n segs → u.isFile = true → GoodTree (writeSegs segs u n)
  | [], _, n, hg, _, _ => hg
  | [s], u, n, hg, hw, hu => by
    cases n with
    | mk nm c cs =>
      have hc : c = none := CanW_cid hw
      subst hc
      rcases goodTree_children hg with ⟨hnames, hkids⟩
      have hfind : findChild cs s = none := by
        cases hw with
        | last _ _ _ hf => simpa using hf
      rw [writeSegs_single, unpack_open (by rfl), addChild_open]
      apply GoodTree.dirn
      · rw [List.map_append]
        rw [List.nodup_append]
        refine ⟨hnames, by simp, ?_⟩
        intro a ha hb
        simp only [List.map_cons, List.map_nil, List.mem_singleton, FsNode.name_mk] at hb
        subst hb
        exact (findChild_eq_none_iff.mp hfind) ha
      · intro x hx
        rcases List.mem_append.mp hx with hx' | hx'
        · exact hkids x hx'
        · rcases List.mem_singleton.mp hx' with rfl
          exact GoodTree.leaf s u [] hu
  | s :: s2 :: rest, u, n, hg, hw, hu => by
    cases n with
    | mk nm c cs =>
      have hc : c = none := CanW_cid hw
      subst hc
      rcases goodTree_children hg with ⟨hnames, hkids⟩
      rw [writeSegs_cons₂_open]
      cases hw with
      | stepNew _ _ _ _ _ hf =>
        simp only [FsNode.children_mk] at hf
        rw [updFirst_not_found _ hf]
        apply GoodTree.dirn
        · rw [List.map_append, List.nodup_append]
          refine ⟨hnames, by simp, ?_⟩
          intro a ha hb
          simp only [List.map_cons, List.map_nil, List.mem_singleton] at hb
          rw [writeSegs_name] at hb
          simp only [FsNode.name_mk] at hb
          subst hb
          exact (findChild_eq_none_iff.mp hf) ha
        · intro x hx
          rcases List.mem_append.mp hx with hx' | hx'
          · exact hkids x hx'
          · rcases List.mem_singleton.mp hx' with rfl
            exact GoodTree_writeSegs (s2 :: rest) u _ (GoodTree.dirn s [] (by simp) (by simp))
              (CanW_fresh s (s2 :: rest) (by simp)) hu
      | stepOld _ _ _ _ ch _ hf hcw =>
        simp only [FsNode.children_mk] at hf
        rcases updFirst_found (writeSegs (s2 :: rest) u) hf with
          ⟨pre, post, hcs, hname, hpre, hupd⟩
        rw [hupd]
        have hnames' : ((pre ++ writeSegs (s2 :: rest) u ch :: post).map FsNode.name) =
            (cs.map FsNode.name) := by
          rw [hcs]
          simp only [List.map_append, List.map_cons]
          rw [writeSegs_name]
        apply GoodTree.dirn
        · rw [hnames']
          exact hnames
        · intro x hx
          rcases List.mem_append.mp hx with hx' | hx'
          · exact hkids x (by rw [hcs]; exact List.mem_append_left _ hx')
          · rcases List.mem_cons.mp hx' with rfl | hx''
            · exact GoodTree_writeSegs (s2 :: rest) u ch
                (hkids ch (by rw [hcs]; exact List.mem_append_right _ (by simp))) hcw hu
            · exact hkids x (by
                rw [hcs]
                exact List.mem_append_right _ (List.mem_cons_of_mem _ hx''))

theorem keysNodup_map_pairOf {cs : List FsNode} (hn : (cs.map FsNode.name).Nodup) :
    keysNodup (cs.map pairOf) := by
  unfold keysNodup
  rw [keys_map_pairOf]
  exact hn

/-- Simulation: on a good tree, the flushed value of a fresh prefix-free
write is the canonical replace-or-append insertion into the flushed
value of the original tree. -/
theorem buildVal_writeSegs : ∀ (segs : List String) (u : UNode) (n : FsNode),
    GoodTree n → CanW n segs → u.isFile = true →
    buildVal (writeSegs segs u n) = insertU segs u (buildVal n)
  | [], _, n, _, _, _ => rfl
  | [s], u, n, hg, hw, hu => by
    cases n with
    | mk nm c cs =>
      have hc : c = none := CanW_cid hw
      subst hc
      rcases goodTree_children hg with ⟨hnames, hkids⟩
      have hfind : findChild cs s = none := by
        cases hw with
        | last _ _ _ hf => simpa using hf
      have hsnot : s ∉ cs.map FsNode.name := findChild_eq_none_iff.mp hfind
      have hnames' : (((cs ++ [FsNode.mk s (some u) []]).map FsNode.name)).Nodup := by
        rw [List.map_append, List.nodup_append]
        refine ⟨hnames, by simp, ?_⟩
        intro a ha hb
        simp only [List.map_cons, List.map_nil, List.mem_singleton, FsNode.name_mk] at hb
        subst hb
        exact hsnot ha
      rw [writeSegs_single, unpack_open (show (FsNode.mk nm none cs).cid = none from rfl),
        addChild_open, buildVal_open_nodup hnames', buildVal_open_nodup hnames, insertU]
      simp only [linksOf_dir]
      have hsnotkeys : s ∉ (sortLinks (cs.map pairOf)).map Prod.fst := by
        intro hmem
        have hperm := (sortLinks_perm (cs.map pairOf)).map Prod.fst
        have hmem' : s ∈ (cs.map pairOf).map Prod.fst := hperm.mem_iff.mp hmem
        rw [keys_map_pairOf] at hmem'
        exact hsnot hmem'
      rw [filter_ne_of_not_mem_keys hsnotkeys]
      have hmapapp : (cs ++ [FsNode.mk s (some u) []]).map pairOf =
          cs.map pairOf ++ [(s, u)] := by
        rw [List.map_append]
        rfl
      rw [hmapapp]
      congr 1
      apply sortLinks_eq_of_perm
      · unfold keysNodup
        rw [List.map_append, keys_map_pairOf]
        rw [List.map_append] at hnames'
        simpa using hnames'
      · exact List.Perm.append_right [(s, u)] (sortLinks_perm (cs.map pairOf)).symm
  | s :: s2 :: rest, u, n, hg, hw, hu => by
    cases n with
    | mk nm c cs =>
      have hc : c = none := CanW_cid hw
      subst hc
      rcases goodTree_children hg with ⟨hnames, hkids⟩
      have hkeys : keysNodup (cs.map pairOf) := keysNodup_map_pairOf hnames
      rw [writeSegs_cons₂_open, buildVal_open_nodup hnames, insertU]
      simp only [linksOf_dir]
      cases hw with
      | stepNew _ _ _ _ _ hf =>
        simp only [FsNode.children_mk] at hf
        have hsnot : s ∉ cs.map FsNode.name := findChild_eq_none_iff.mp hf
        have hsub : (match assocFind (sortLinks (cs.map pairOf)) s with
            | some t' => t'
            | none => UNode.dir []) = UNode.dir [] := by
          rw [assocFind_sortLinks hkeys, assocFind_map_pairOf, hf]
          rfl
        rw [hsub, updFirst_not_found _ hf]
        have hfcname : (writeSegs (s2 :: rest) u (FsNode.mk s none [])).name = s := by
          rw [writeSegs_name]
          rfl
        have hnames' : (((cs ++ [writeSegs (s2 :: rest) u (FsNode.mk s none [])]).map
            FsNode.name)).Nodup := by
          rw [List.map_append, List.nodup_append]
          refine ⟨hnames, by simp, ?_⟩
          intro a ha hb
          simp only [List.map_cons, List.map_nil, List.mem_singleton, hfcname] at hb
          subst hb
          exact hsnot ha
        rw [buildVal_open_nodup hnames']
        have hih : buildVal (writeSegs (s2 :: rest) u (FsNode.mk s none [])) =
            insertU (s2 :: rest) u (UNode.dir []) := by
          have hfresh : buildVal (FsNode.mk s none []) = UNode.dir [] := rfl
          rw [← hfresh]
          exact buildVal_writeSegs (s2 :: rest) u _ (GoodTree.dirn s [] (by simp) (by simp))
            (CanW_fresh s (s2 :: rest) (by simp)) hu
        have hmapapp : (cs ++ [writeSegs (s2 :: rest) u (FsNode.mk s none [])]).map pairOf =
            cs.map pairOf ++ [(s, insertU (s2 :: rest) u (UNode.dir []))] := by
          rw [List.map_append]
          congr 1
          simp only [List.map_cons, List.map_nil, pairOf, hfcname, hih]
        rw [hmapapp]
        have hsnotkeys : s ∉ (sortLinks (cs.map pairOf)).map Prod.fst := by
          intro hmem
          have hperm := (sortLinks_perm (cs.map pairOf)).map Prod.fst
          have hmem' : s ∈ (cs.map pairOf).map Prod.fst := hperm.mem_iff.mp hmem
          rw [keys_map_pairOf] at hmem'
          exact hsnot hmem'
        rw [filter_ne_of_not_mem_keys hsnotkeys]
        congr 1
        apply sortLinks_eq_of_perm
        · unfold keysNodup
          rw [List.map_append, keys_map_pairOf]
          simp only [List.map_cons, List.map_nil]
          rw [List.nodup_append]
          refine ⟨hnames, by simp, ?_⟩
          intro a ha hb
          simp only [List.mem_singleton] at hb
          subst hb
          exact hsnot ha
        · exact List.Perm.append_right _ (sortLinks_perm (cs.map pairOf)).symm
      | stepOld _ _ _ _ ch _ hf hcw =>
        simp only [FsNode.children_mk] at hf
        rcases updFirst_found (writeSegs (s2 :: rest) u) hf with
          ⟨pre, post, hcs, hname, hpre, hupd⟩
        have hchmem : ch ∈ cs := by
          rw [hcs]
          exact List.mem_append_right _ (by simp)
        have hsub : (match assocFind (sortLinks (cs.map pairOf)) s with
            | some t' => t'
            | none => UNode.dir []) = buildVal ch := by
          rw [assocFind_sortLinks hkeys, assocFind_map_pairOf, hf]
          rfl
        rw [hsub, hupd]
        have hih : buildVal (writeSegs (s2 :: rest) u ch) =
            insertU (s2 :: rest) u (buildVal ch) :=
          buildVal_writeSegs (s2 :: rest) u ch (hkids ch hchmem) hcw hu
        have hnames' : (((pre ++ writeSegs (s2 :: rest) u ch :: post).map FsNode.name)).Nodup := by
          have heq : ((pre ++ writeSegs (s2 :: rest) u ch :: post).map FsNode.name) =
              (cs.map FsNode.name) := by
            rw [hcs]
            simp only [List.map_append, List.map_cons]
            rw [writeSegs_name]
          rw [heq]
          exact hnames
        rw [buildVal_open_nodup hnames']
        congr 1
        -- name bookkeeping along the decomposition cs = pre ++ ch :: post
        have hnamescs : (cs.map FsNode.name) =
            pre.map FsNode.name ++ s :: post.map FsNode.name := by
          rw [hcs]
          simp only [List.map_append, List.map_cons, hname]
        have hpreNot : s ∉ (pre.map pairOf).map Prod.fst := by
          rw [keys_map_pairOf]
          intro hmem
          rcases List.mem_map.mp hmem with ⟨x, hx, hxs⟩
          exact hpre x hx hxs
        have hpostNot : s ∉ (post.map pairOf).map Prod.fst := by
          rw [keys_map_pairOf]
          intro hmem
          have hnd := hnames
          rw [hnamescs, List.nodup_append] at hnd
          rcases hnd with ⟨-, hnd₂, -⟩
          rcases List.nodup_cons.mp hnd₂ with ⟨hns, -⟩
          exact hns hmem
        apply sortLinks_eq_of_perm
        · unfold keysNodup
          have heq : ((pre ++ writeSegs (s2 :: rest) u ch :: post).map pairOf).map Prod.fst =
              (cs.map FsNode.name) := by
            rw [keys_map_pairOf, hcs]
            simp only [List.map_append, List.map_cons]
            rw [writeSegs_name]
          rw [heq]
          exact hnames
        · -- LHS pairs ~ filtered sorted pairs ++ [(s, new)]
          have hmapL : (pre ++ writeSegs (s2 :: rest) u ch :: post).map pairOf =
              pre.map pairOf ++ (s, insertU (s2 :: rest) u (buildVal ch)) :: post.map pairOf := by
            simp only [List.map_append, List.map_cons, pairOf]
            rw [writeSegs_name, hname, hih]
          have hmapR : cs.map pairOf =
              pre.map pairOf ++ (s, buildVal ch) :: post.map pairOf := by
            rw [hcs]
            simp only [List.map_append, List.map_cons, pairOf, hname]
          have hfilterPerm : ((sortLinks (cs.map pairOf)).filter (fun e => !(e.1 = s))).Perm
              (pre.map pairOf ++ post.map pairOf) := by
            have hp₁ : ((sortLinks (cs.map pairOf)).filter (fun e => !(e.1 = s))).Perm
                ((cs.map pairOf).filter (fun e => !(e.1 = s))) :=
              (sortLinks_perm (cs.map pairOf)).filter _
            have hp₂ : (cs.map pairOf).filter (fun e => !(e.1 = s)) =
                pre.map pairOf ++ post.map pairOf := by
              rw [hmapR, List.filter_append, List.filter_cons]
              simp only [decide_eq_true_eq, Bool.not_eq_true', decide_eq_false_iff_not]
              rw [if_neg (by simp)]
              rw [filter_ne_of_not_mem_keys hpreNot, filter_ne_of_not_mem_keys hpostNot]
            rw [hp₂] at hp₁
            exact hp₁
          rw [hmapL]
          exact (List.perm_middle.trans
            (List.perm_append_singleton _ _).symm).trans
            (List.Perm.append_right _ hfilterPerm.symm)

theorem addChild_cid_none {n : FsNode} (h : n.cid = none) (c : FsNode) :
    (addChild n c).cid = none := by
  unfold addChild
  cases hc : n.children with
  | nil => rfl
  | cons c₀ cs => simpa using h

theorem writeSegs_cid_none : ∀ (p : List String) (u : UNode) (n : FsNode), p ≠ [] →
    (writeSegs p u n).cid = none
  | [], _, _, h => absurd rfl h
  | [last], u, n, _ => by
    rw [writeSegs_single]
    exact addChild_cid_none (unpack_cid n) _
  | s :: s2 :: rest, u, n, _ => by
    have hgoal : writeSegs (s :: s2 :: rest) u n =
        match unpack n with
        | FsNode.mk nm c cs => FsNode.mk nm c (updFirst cs s (writeSegs (s2 :: rest) u)) :=
      rfl
    rw [hgoal]
    cases h : unpack n with
    | mk nm c cs =>
      have := unpack_cid n
      rw [h] at this
      simpa using this

theorem findChild_append_singleton (cs : List FsNode) (x : FsNode) (b : String) :
    findChild (cs ++ [x]) b =
      match findChild cs b with
      | some c => some c
      | none => if x.name = b then some x else none := by
  induction cs with
  | nil => simp [findChild_cons]
  | cons c₀ cs ih =>
    rw [List.cons_append, findChild_cons, findChild_cons]
    by_cases h : c₀.name = b
    · simp [h]
    · simp only [h, if_false]
      exact ih

theorem findChild_updFirst_ne {cs : List FsNode} {a b : String} {f : FsNode → FsNode}
    (hfname : ∀ x, (f x).name = x.name) (hab : a ≠ b) :
    findChild (updFirst cs a f) b = findChild cs b := by
  induction cs with
  | nil =>
    rw [updFirst]
    rw [findChild_cons]
    have hnm : (f (FsNode.mk a none [])).name = a := by rw [hfname]; rfl
    rw [hnm]
    simp [hab]
  | cons c₀ cs ih =>
    rw [updFirst]
    by_cases h : c₀.name = a
    · simp only [h, if_true]
      rw [findChild_cons, findChild_cons]
      have hfb : (f c₀).name = c₀.name := hfname c₀
      have hb : c₀.name ≠ b := by rw [h]; exact hab
      rw [hfb]
      simp [hb]
    · simp only [h, if_false]
      rw [findChild_cons, findChild_cons]
      by_cases h₂ : c₀.name = b
      · simp [h₂]
      · simp only [h₂, if_false]
        exact ih

theorem findChild_pre_cons {pre : List FsNode} {s : String} {y : FsNode}
    (hpre : ∀ x ∈ pre, x.name ≠ s) (hy : y.name = s) (post : List FsNode) :
    findChild (pre ++ y :: post) s = some y := by
  induction pre with
  | nil =>
    rw [List.nil_append, findChild_cons]
    simp [hy]
  | cons c₀ pre' ih =>
    rw [List.cons_append, findChild_cons]
    have : c₀.name ≠ s := hpre c₀ (by simp)
    simp only [this, if_false]
    exact ih (fun x hx => hpre x (List.mem_cons_of_mem _ hx))

/-- A fresh write on a disjoint (prefix-free) path preserves the
freshness of another path. -/
theorem CanW_writeSegs : ∀ (p q : List String) (u : UNode) (n : FsNode),
    GoodTree n → CanW n q → p ≠ [] → ¬ p <+: q → ¬ q <+: p →
    CanW (writeSegs p u n) q
  | [], _, _, _, _, _, hp, _, _ => absurd rfl hp
  | p, q, u, n, hg, hq, hp, hpq, hqp => by
    cases n with
    | mk nm c cs =>
      have hc : c = none := CanW_cid hq
      subst hc
      rcases goodTree_children hg with ⟨hnames, hkids⟩
      cases p with
      | nil => exact absurd rfl hp
      | cons a p' =>
        have hwname : ∀ x, (writeSegs (p'.headI :: p'.tail) u x).name = x.name := by
          intro x
          rw [writeSegs_name]
        -- the written tree's root is open
        have hcid : (writeSegs (a :: p') u (FsNode.mk nm none cs)).cid = none :=
          writeSegs_cid_none (a :: p') u _ (by simp)
        cases q with
        | nil => cases hq
        | cons b q' =>
          by_cases hab : a = b
          · subst hab
            -- both paths continue below `a`, with nonempty divergent rests
            have hp' : p' ≠ [] := by
              intro h
              subst h
              exact hpq ⟨q', rfl⟩
            have hq' : q' ≠ [] := by
              intro h
              subst h
              exact hqp ⟨p', rfl⟩
            have hp'q' : ¬ p' <+: q' := by
              intro h
              rcases h with ⟨r, hr⟩
              exact hpq ⟨r, by rw [List.cons_append, hr]⟩
            have hq'p' : ¬ q' <+: p' := by
              intro h
              rcases h with ⟨r, hr⟩
              exact hqp ⟨r, by rw [List.cons_append, hr]⟩
            cases p' with
            | nil => exact absurd rfl hp'
            | cons a2 p'' =>
              rw [writeSegs_cons₂_open]
              cases hq with
              | last _ _ _ hf =>
                exact absurd rfl hq'
              | stepNew _ _ s2q restq _ hf =>
                simp only [FsNode.children_mk] at hf
                rw [updFirst_not_found _ hf]
                refine CanW.stepOld _ _ s2q restq
                  (writeSegs (a2 :: p'') u (FsNode.mk a none [])) rfl ?_ ?_
                · simp only [FsNode.children_mk]
                  rw [findChild_append_singleton, hf]
                  have : (writeSegs (a2 :: p'') u (FsNode.mk a none [])).name = a := by
                    rw [writeSegs_name]
                    rfl
                  simp [this]
                · exact CanW_writeSegs (a2 :: p'') (s2q :: restq) u _
                    (GoodTree.dirn a [] (by simp) (by simp))
                    (CanW_fresh a (s2q :: restq) (by simp)) (by simp) hp'q' hq'p'
              | stepOld _ _ s2q restq ch _ hf hchq =>
                simp only [FsNode.children_mk] at hf
                rcases updFirst_found (writeSegs (a2 :: p'') u) hf with
                  ⟨pre, post, hcs, hname, hpre, hupd⟩
                rw [hupd]
                refine CanW.stepOld _ _ s2q restq (writeSegs (a2 :: p'') u ch) rfl ?_ ?_
                · simp only [FsNode.children_mk]
                  apply findChild_pre_cons hpre _ post
                  rw [writeSegs_name]
                  exact hname
                · exact CanW_writeSegs (a2 :: p'') (s2q :: restq) u ch
                    (hkids ch (by rw [hcs]; exact List.mem_append_right _ (by simp)))
                    hchq (by simp) hp'q' hq'p'
          · -- divergent heads: the other branch is untouched
            have hfc : findChild (writeSegs (a :: p') u (FsNode.mk nm none cs)).children b =
                findChild cs b := by
              cases p' with
              | nil =>
                rw [writeSegs_single, unpack_open (by rfl), addChild_open]
                simp only [FsNode.children_mk]
                rw [findChild_append_singleton]
                cases hfb : findChild cs b with
                | some c₀ => rfl
                | none => simp [hab]
              | cons a2 p'' =>
                rw [writeSegs_cons₂_open]
                simp only [FsNode.children_mk]
                exact findChild_updFirst_ne (fun x => writeSegs_name _ _ _) hab
            cases hq with
            | last _ _ _ hf =>
              simp only [FsNode.children_mk] at hf
              exact CanW.last _ b hcid (by rw [hfc]; exact hf)
            | stepNew _ _ s2q restq _ hf =>
              simp only [FsNode.children_mk] at hf
              exact CanW.stepNew _ b s2q restq hcid (by rw [hfc]; exact hf)
            | stepOld _ _ s2q restq ch _ hf hchq =>
              simp only [FsNode.children_mk] at hf
              exact CanW.stepOld _ b s2q restq ch hcid (by rw [hfc]; exact hf) hchq

theorem CanW_ne_nil {n : FsNode} {segs : List String} (h : CanW n segs) : segs ≠ [] := by
  cases h with
  | last _ _ _ _ => simp
  | stepNew _ _ _ _ _ _ => simp
  | stepOld _ _ _ _ _ _ _ _ => simp

/-- The root fsnode after a sequence of `WriteFileNode` descents. -/
def runWritesSegs (ws : List (List String × UNode)) (n : FsNode) : FsNode :=
  ws.foldl (fun n w => writeSegs w.1 w.2 n) n

@[simp] theorem runWritesSegs_nil (n : FsNode) : runWritesSegs [] n = n := rfl

@[simp] theorem runWritesSegs_cons (w : List String × UNode)
    (ws : List (List String × UNode)) (n : FsNode) :
    runWritesSegs (w :: ws) n = runWritesSegs ws (writeSegs w.1 w.2 n) := rfl

/-- Simulation at the fold level: a prefix-free batch of fresh file
writes flushes to the canonical value-level insertion of the batch. -/
theorem buildVal_runWritesSegs : ∀ (ws : List (List String × UNode)) (n : FsNode),
    GoodTree n → (∀ w ∈ ws, CanW n w.1 ∧ w.2.isFile = true) →
    ws.Pairwise (fun a b => ¬ a.1 <+: b.1 ∧ ¬ b.1 <+: a.1) →
    buildVal (runWritesSegs ws n) = insertAll (buildVal n) ws
  | [], _, _, _, _ => rfl
  | w :: ws, n, hg, hws, hpw => by
    rw [runWritesSegs_cons, insertAll_cons]
    rcases hws w (by simp) with ⟨hcw, hfile⟩
    rcases List.pairwise_cons.mp hpw with ⟨hhead, htail⟩
    have hg' : GoodTree (writeSegs w.1 w.2 n) := GoodTree_writeSegs w.1 w.2 n hg hcw hfile
    have hws' : ∀ w' ∈ ws, CanW (writeSegs w.1 w.2 n) w'.1 ∧ w'.2.isFile = true := by
      intro w' hw'
      rcases hws w' (List.mem_cons_of_mem _ hw') with ⟨hcw', hfile'⟩
      rcases hhead w' hw' with ⟨hpq, hqp⟩
      exact ⟨CanW_writeSegs w.1 w'.1 w.2 n hg hcw' (CanW_ne_nil hcw) hpq hqp, hfile'⟩
    rw [buildVal_runWritesSegs ws _ hg' hws' htail,
      buildVal_writeSegs w.1 w.2 n hg hcw hfile]

/-- Inserting nonempty paths into a directory value keeps it a directory. -/
theorem insertAll_isDir : ∀ (ws : List (List String × UNode)) (d : List (String × UNode)),
    (∀ w ∈ ws, w.1 ≠ []) → ∃ ls, insertAll (.dir d) ws = .dir ls
  | [], d, _ => ⟨d, rfl⟩
  | w :: ws, d, hne => by
    rw [insertAll_cons]
    have h₁ : w.1 ≠ [] := hne w (by simp)
    have : ∃ d', insertU w.1 w.2 (.dir d) = .dir d' := by
      cases hw : w.1 with
      | nil => exact absurd hw h₁
      | cons s rest =>
        cases rest with
        | nil => exact ⟨_, rfl⟩
        | cons s2 rest' => exact ⟨_, rfl⟩
    rcases this with ⟨d', hd'⟩
    rw [hd']
    exact insertAll_isDir ws d' (fun w' hw' => hne w' (List.mem_cons_of_mem _ hw'))

/-- Folding `WriteFileNode` over a builder only rewrites the root tree. -/
theorem foldl_WriteFileNode : ∀ (ws : List (String × UNode)) (b : Builder),
    ws.foldl (fun b w => b.WriteFileNode w.1 w.2) b =
      ⟨runWritesSegs (ws.map (fun w => (splitOnSlash w.1, w.2))) b.root, b.node⟩
  | [], b => rfl
  | w :: ws, b => by
    rw [List.foldl_cons, List.map_cons, runWritesSegs_cons]
    exact foldl_WriteFileNode ws _

theorem runWritesSegs_cid_none : ∀ (ws : List (List String × UNode)) (n : FsNode),
    n.cid = none → (runWritesSegs ws n).cid = none
  | [], _, h => h
  | w :: ws, n, h => by
    rw [runWritesSegs_cons]
    apply runWritesSegs_cid_none
    cases hw : w.1 with
    | nil => exact h
    | cons s rest => exact writeSegs_cid_none (s :: rest) w.2 n (by simp)

/-- C1: Resolution round-trip.  For any batch of `(path, file node)`
writes whose paths have valid segments and are pairwise non-prefix,
`Builder.ReadFS` after folding `WriteFileNode` over a fresh builder
succeeds, and `FS.Open` on each written path returns a file handle
holding exactly the written node (hence the same CID). -/
theorem C1_resolution_roundtrip (ws : List (String × UNode))
    (hseg : ∀ w ∈ ws, ∀ s ∈ splitOnSlash w.1, s ≠ ("") ∧ s ≠ (".") ∧ s ≠ (".."))
    (hfile : ∀ w ∈ ws, w.2.isFile = true)
    (hpw : (ws.map (fun w => splitOnSlash w.1)).Pairwise
      (fun a b => ¬ a <+: b ∧ ¬ b <+: a)) :
    ∃ fs : FSm,
      (ws.foldl (fun b w => b.WriteFileNode w.1 w.2) NewBuilder).ReadFSm = some fs ∧
      ∀ w ∈ ws, ∃ f : FileHandle, fs.Open w.1 = .ok (.fileH f) ∧ f.fnode = w.2 := by
  have hfold := foldl_WriteFileNode ws NewBuilder
  have hg0 : GoodTree (FsNode.mk ("") none []) := GoodTree.dirn _ [] (by simp) (by simp)
  have hcw0 : ∀ w ∈ ws.map (fun w => (splitOnSlash w.1, w.2)),
      CanW (FsNode.mk ("") none []) w.1 ∧ w.2.isFile = true := by
    intro w hw
    rcases List.mem_map.mp hw with ⟨w₀, hw₀, rfl⟩
    exact ⟨CanW_fresh _ _ (splitOnSlash_ne_nil w₀.1), hfile w₀ hw₀⟩
  have hpw' : (ws.map (fun w => (splitOnSlash w.1, w.2))).Pairwise
      (fun a b => ¬ a.1 <+: b.1 ∧ ¬ b.1 <+: a.1) :=
    List.pairwise_map.mpr (List.pairwise_map.mp hpw)
  have hne' : ∀ w ∈ ws.map (fun w => (splitOnSlash w.1, w.2)), w.1 ≠ [] := by
    intro w hw
    rcases List.mem_map.mp hw with ⟨w₀, _, rfl⟩
    exact splitOnSlash_ne_nil w₀.1
  have hsim : buildVal (runWritesSegs (ws.map (fun w => (splitOnSlash w.1, w.2)))
      (FsNode.mk ("") none [])) =
      insertAll (.dir []) (ws.map (fun w => (splitOnSlash w.1, w.2))) :=
    buildVal_runWritesSegs _ _ hg0 hcw0 hpw'
  rcases insertAll_isDir (ws.map (fun w => (splitOnSlash w.1, w.2))) [] hne' with ⟨ls, hls⟩
  have hcidr : (runWritesSegs (ws.map (fun w => (splitOnSlash w.1, w.2)))
      (FsNode.mk ("") none [])).cid = none := runWritesSegs_cid_none _ _ rfl
  refine ⟨⟨.dir ls⟩, ?_, ?_⟩
  · rw [hfold]
    have hnb : NewBuilder.root = FsNode.mk ("") none [] := rfl
    rw [hnb]
    cases hr : runWritesSegs (ws.map (fun w => (splitOnSlash w.1, w.2)))
        (FsNode.mk ("") none []) with
    | mk nm c cs =>
      rw [hr] at hcidr
      simp only [FsNode.cid_mk] at hcidr
      subst hcidr
      rw [hr] at hsim
      show mkReadFS (buildVal (FsNode.mk nm none cs)) = some ⟨UNode.dir ls⟩
      rw [hsim, hls]
      rfl
  · intro w hw
    have hsegw := hseg w hw
    have hvalid : validPath w.1 = true := validPath_of_segs hsegw
    have hdot : w.1 ≠ (".") := ne_dot_of_segs hsegw
    have hns : splitOnSlash w.1 ≠ [("")] := ne_singleton_empty_of_segs hsegw
    have hempty : ("") ∉ splitOnSlash w.1 := fun hc => (hsegw _ hc).1 rfl
    have htrim : trimSlash w.1 = w.1 := trimSlash_eq_self hempty
    have hmem : (splitOnSlash w.1, w.2) ∈ ws.map (fun w => (splitOnSlash w.1, w.2)) :=
      List.mem_map.mpr ⟨w, hw, rfl⟩
    have hnd0 : NodupU (.dir []) := NodupU.dir (by simp [keysNodup]) (by simp)
    have hlook : lookupU (.dir ls) (splitOnSlash w.1) = some w.2 := by
      have h := lookupU_insertAll_mem (ws.map (fun w => (splitOnSlash w.1, w.2)))
        (.dir []) (splitOnSlash w.1, w.2) hmem hnd0
        (fun w' hw' => nodupU_of_isFile (hcw0 w' hw').2) hne' hpw'
      rw [hls] at h
      exact h
    rcases walkParts_ok_of_lookupU (splitOnSlash w.1) ls w.2
      (splitOnSlash_ne_nil w.1) hlook with ⟨nm, hwp⟩
    have hloc : locateNode ⟨UNode.dir ls⟩ w.1 = Except.ok (w.2, nm) := by
      simp only [locateNode]
      rw [htrim]
      rw [if_neg hns]
      simpa using hwp
    cases hu : w.2 with
    | dir d =>
      have := hfile w hw
      rw [hu] at this
      simp [UNode.isFile] at this
    | file i =>
      refine ⟨newFile nm (.file i), ?_, rfl⟩
      rw [hu] at hloc
      simp only [FSm.Open, hvalid, Bool.not_true, if_false, if_neg hdot, hloc]
      simp

def c1ws : List (String × UNode) := [(("a/b"), UNode.file 0), (("c"), UNode.file 1)]

theorem C1_resolution_roundtrip_witness :
    ((∀ w ∈ c1ws, ∀ s ∈ splitOnSlash w.1, s ≠ ("") ∧ s ≠ (".") ∧ s ≠ ("..")) ∧
     (∀ w ∈ c1ws, w.2.isFile = true) ∧
     (c1ws.map (fun w => splitOnSlash w.1)).Pairwise (fun a b => ¬ a <+: b ∧ ¬ b <+: a)) ∧
    (∃ fs : FSm,
      (c1ws.foldl (fun b w => b.WriteFileNode w.1 w.2) NewBuilder).ReadFSm = some fs ∧
      ∀ w ∈ c1ws, ∃ f : FileHandle, fs.Open w.1 = .ok (.fileH f) ∧ f.fnode = w.2) :=
  ⟨⟨by decide, by decide, by decide⟩,
    C1_resolution_roundtrip c1ws (by decide) (by decide) (by decide)⟩

/-- The child of a link list used for a descending insert: the found
node, or a fresh empty directory. -/
def childAt (L : List (String × UNode)) (s : String) : UNode :=
  match assocFind L s with
  | some t' => t'
  | none => .dir []

/-- The subtree placed at a first segment by `insertU`. -/
def insTail : List String → UNode → UNode → UNode
  | [], u, _ => u
  | p, u, c => insertU p u c

theorem insTail_ne_nil {p : List String} (h : p ≠ []) (u c : UNode) :
    insTail p u c = insertU p u c := by
  cases p with
  | nil => exact absurd rfl h
  | cons a p' => rfl

theorem insertU_cons (a : String) (p' : List String) (u t : UNode) :
    insertU (a :: p') u t =
      .dir (sortLinks ((t.linksOf.filter (fun e => !(e.1 = a))) ++
        [(a, insTail p' u (childAt t.linksOf a))])) := by
  cases p' with
  | nil => rfl
  | cons s2 rest => rfl

theorem filter_filter_comm (L : List (String × UNode)) (a b : String) :
    (L.filter (fun e => !(e.1 = a))).filter (fun e => !(e.1 = b)) =
    (L.filter (fun e => !(e.1 = b))).filter (fun e => !(e.1 = a)) := by
  induction L with
  | nil => rfl
  | cons e es ih =>
    by_cases ha : e.1 = a <;> by_cases hb : e.1 = b
    · have da : (!decide (e.1 = a)) = false := by simp [ha]
      have db : (!decide (e.1 = b)) = false := by simp [hb]
      simp [List.filter_cons, da, db, ih]
    · have da : (!decide (e.1 = a)) = false := by simp [ha]
      have db : (!decide (e.1 = b)) = true := by simp [hb]
      simp [List.filter_cons, da, db, ih]
    · have da : (!decide (e.1 = a)) = true := by simp [ha]
      have db : (!decide (e.1 = b)) = false := by simp [hb]
      simp [List.filter_cons, da, db, ih]
    · have da : (!decide (e.1 = a)) = true := by simp [ha]
      have db : (!decide (e.1 = b)) = true := by simp [hb]
      simp [List.filter_cons, da, db, ih]

/-- Two inserts under distinct first segments commute: each touches a
different link of the directory, and the sort canonicalizes the order. -/
theorem insertU_comm_ne (a b : String) (p' q' : List String) (u v t : UNode)
    (ht : NodupU t) (hab : ¬ a = b) :
    insertU (b :: q') v (insertU (a :: p') u t) = insertU (a :: p') u (insertU (b :: q') v t) := by
  have hba : ¬ b = a := fun h => hab h.symm
  rw [insertU_cons a p' u t, insertU_cons b q' v t, insertU_cons, insertU_cons]
  simp only [linksOf_dir]
  have hcb : childAt (sortLinks ((t.linksOf.filter (fun e => !(e.1 = a))) ++
      [(a, insTail p' u (childAt t.linksOf a))])) b = childAt t.linksOf b := by
    unfold childAt
    rw [assocFind_insert_links ht.keys, if_neg hba]
  have hca : childAt (sortLinks ((t.linksOf.filter (fun e => !(e.1 = b))) ++
      [(b, insTail q' v (childAt t.linksOf b))])) a = childAt t.linksOf a := by
    unfold childAt
    rw [assocFind_insert_links ht.keys, if_neg hab]
  rw [hcb, hca]
  refine congrArg UNode.dir ?_
  have hnd₁ : keysNodup (sortLinks ((t.linksOf.filter (fun e => !(e.1 = a))) ++
      [(a, insTail p' u (childAt t.linksOf a))])) :=
    keysNodup_sortLinks (keysNodup_filter_append ht.keys a _)
  have hnd₂ : keysNodup (sortLinks ((t.linksOf.filter (fun e => !(e.1 = b))) ++
      [(b, insTail q' v (childAt t.linksOf b))])) :=
    keysNodup_sortLinks (keysNodup_filter_append ht.keys b _)
  have hndM₁ : keysNodup ((sortLinks ((t.linksOf.filter (fun e => !(e.1 = a))) ++
      [(a, insTail p' u (childAt t.linksOf a))])).filter (fun e => !(e.1 = b)) ++
      [(b, insTail q' v (childAt t.linksOf b))]) :=
    keysNodup_filter_append hnd₁ b _
  have hndM₂ : keysNodup ((sortLinks ((t.linksOf.filter (fun e => !(e.1 = b))) ++
      [(b, insTail q' v (childAt t.linksOf b))])).filter (fun e => !(e.1 = a)) ++
      [(a, insTail p' u (childAt t.linksOf a))]) :=
    keysNodup_filter_append hnd₂ a _
  have hstep₁ : ((sortLinks ((t.linksOf.filter (fun e => !(e.1 = a))) ++
      [(a, insTail p' u (childAt t.linksOf a))])).filter (fun e => !(e.1 = b))).Perm
      ((t.linksOf.filter (fun e => !(e.1 = a))).filter (fun e => !(e.1 = b)) ++
        [(a, insTail p' u (childAt t.linksOf a))]) := by
    have h := (sortLinks_perm ((t.linksOf.filter (fun e => !(e.1 = a))) ++
      [(a, insTail p' u (childAt t.linksOf a))])).filter (fun e => !(e.1 = b))
    rw [List.filter_append] at h
    have hsing : ([(a, insTail p' u (childAt t.linksOf a))].filter
        (fun e => !(e.1 = b))) = [(a, insTail p' u (childAt t.linksOf a))] := by
      simp [hab]
    rw [hsing] at h
    exact h
  have hstep₂ : ((sortLinks ((t.linksOf.filter (fun e => !(e.1 = b))) ++
      [(b, insTail q' v (childAt t.linksOf b))])).filter (fun e => !(e.1 = a))).Perm
      ((t.linksOf.filter (fun e => !(e.1 = b))).filter (fun e => !(e.1 = a)) ++
        [(b, insTail q' v (childAt t.linksOf b))]) := by
    have h := (sortLinks_perm ((t.linksOf.filter (fun e => !(e.1 = b))) ++
      [(b, insTail q' v (childAt t.linksOf b))])).filter (fun e => !(e.1 = a))
    rw [List.filter_append] at h
    have hsing : ([(b, insTail q' v (childAt t.linksOf b))].filter
        (fun e => !(e.1 = a))) = [(b, insTail q' v (childAt t.linksOf b))] := by
      simp [hba]
    rw [hsing] at h
    exact h
  have hperm₁ := List.Perm.append_right [(b, insTail q' v (childAt t.linksOf b))] hstep₁
  have hperm₂ := List.Perm.append_right [(a, insTail p' u (childAt t.linksOf a))] hstep₂
  have hmid : (((t.linksOf.filter (fun e => !(e.1 = a))).filter (fun e => !(e.1 = b)) ++
      [(a, insTail p' u (childAt t.linksOf a))]) ++
      [(b, insTail q' v (childAt t.linksOf b))]).Perm
      (((t.linksOf.filter (fun e => !(e.1 = b))).filter (fun e => !(e.1 = a)) ++
        [(b, insTail q' v (childAt t.linksOf b))]) ++
        [(a, insTail p' u (childAt t.linksOf a))]) := by
    rw [filter_filter_comm t.linksOf b a]
    rw [List.append_assoc, List.append_assoc]
    exact List.Perm.append_left _ (List.Perm.swap _ _ _)
  exact ((sortLinks_eq_of_perm hndM₁ hperm₁).trans
    (sortLinks_eq_of_perm (keysNodup_perm hperm₁ hndM₁) hmid)).trans
    (sortLinks_eq_of_perm hndM₂ hperm₂).symm

/-- Inserts at prefix-free paths commute on any dedup-clean value. -/
theorem insertU_comm : ∀ (p q : List String) (u v t : UNode), NodupU t →
    ¬ p <+: q → ¬ q <+: p →
    insertU q v (insertU p u t) = insertU p u (insertU q v t)
  | [], q, _, _, _, _, hpq, _ => absurd List.nil_prefix hpq
  | _ :: _, [], _, _, _, _, _, hqp => absurd List.nil_prefix hqp
  | a :: p', b :: q', u, v, t, ht, hpq, hqp => by
    by_cases hab : a = b
    · subst hab
      have hp' : p' ≠ [] := fun h => hpq (by rw [h]; exact ⟨q', rfl⟩)
      have hq' : q' ≠ [] := fun h => hqp (by rw [h]; exact ⟨p', rfl⟩)
      have hp'q' : ¬ p' <+: q' := fun h => hpq (List.cons_prefix_cons.mpr ⟨rfl, h⟩)
      have hq'p' : ¬ q' <+: p' := fun h => hqp (List.cons_prefix_cons.mpr ⟨rfl, h⟩)
      have hCa : NodupU (childAt t.linksOf a) := by
        unfold childAt
        cases hf : assocFind t.linksOf a with
        | none => exact NodupU.dir (by simp [keysNodup]) (by simp)
        | some c => exact ht.child (mem_of_assocFind_eq_some hf)
      have hIH := insertU_comm p' q' u v (childAt t.linksOf a) hCa hp'q' hq'p'
      rw [insertU_cons a p' u t, insertU_cons a q' v t, insertU_cons, insertU_cons]
      simp only [linksOf_dir]
      simp only [insTail_ne_nil hp', insTail_ne_nil hq']
      have hcs₁ : childAt (sortLinks ((t.linksOf.filter (fun e => !(e.1 = a))) ++
          [(a, insertU p' u (childAt t.linksOf a))])) a =
          insertU p' u (childAt t.linksOf a) := by
        unfold childAt
        rw [assocFind_insert_links ht.keys, if_pos rfl]
      have hcs₂ : childAt (sortLinks ((t.linksOf.filter (fun e => !(e.1 = a))) ++
          [(a, insertU q' v (childAt t.linksOf a))])) a =
          insertU q' v (childAt t.linksOf a) := by
        unfold childAt
        rw [assocFind_insert_links ht.keys, if_pos rfl]
      rw [hcs₁, hcs₂]
      refine congrArg UNode.dir ?_
      rw [hIH]
      have hself : a ∉ (t.linksOf.filter (fun e => !(e.1 = a))).map Prod.fst :=
        assocFind_eq_none_iff.mp (assocFind_filter_self t.linksOf a)
      have hfilt : ∀ (x : UNode), ((t.linksOf.filter (fun e => !(e.1 = a))) ++
          [(a, x)]).filter (fun e => !(e.1 = a)) =
          t.linksOf.filter (fun e => !(e.1 = a)) := by
        intro x
        rw [List.filter_append, filter_ne_of_not_mem_keys hself]
        simp
      have hstep₁ : ((sortLinks ((t.linksOf.filter (fun e => !(e.1 = a))) ++
          [(a, insertU p' u (childAt t.linksOf a))])).filter (fun e => !(e.1 = a))).Perm
          (t.linksOf.filter (fun e => !(e.1 = a))) := by
        have h := (sortLinks_perm ((t.linksOf.filter (fun e => !(e.1 = a))) ++
          [(a, insertU p' u (childAt t.linksOf a))])).filter (fun e => !(e.1 = a))
        rw [hfilt] at h
        exact h
      have hstep₂ : ((sortLinks ((t.linksOf.filter (fun e => !(e.1 = a))) ++
          [(a, insertU q' v (childAt t.linksOf a))])).filter (fun e => !(e.1 = a))).Perm
          (t.linksOf.filter (fun e => !(e.1 = a))) := by
        have h := (sortLinks_perm ((t.linksOf.filter (fun e => !(e.1 = a))) ++
          [(a, insertU q' v (childAt t.linksOf a))])).filter (fun e => !(e.1 = a))
        rw [hfilt] at h
        exact h
      have hnd₁ : keysNodup (sortLinks ((t.linksOf.filter (fun e => !(e.1 = a))) ++
          [(a, insertU p' u (childAt t.linksOf a))])) :=
        keysNodup_sortLinks (keysNodup_filter_append ht.keys a _)
      have hnd₂ : keysNodup (sortLinks ((t.linksOf.filter (fun e => !(e.1 = a))) ++
          [(a, insertU q' v (childAt t.linksOf a))])) :=
        keysNodup_sortLinks (keysNodup_filter_append ht.keys a _)
      have hndM₁ := keysNodup_filter_append hnd₁ a
        (insertU p' u (insertU q' v (childAt t.linksOf a)))
      have hndM₂ := keysNodup_filter_append hnd₂ a
        (insertU p' u (insertU q' v (childAt t.linksOf a)))
      exact (sortLinks_eq_of_perm hndM₁ (List.Perm.append_right _ hstep₁)).trans
        (sortLinks_eq_of_perm hndM₂ (List.Perm.append_right _ hstep₂)).symm
    · exact insertU_comm_ne a b p' q' u v t ht hab

/-- Batch insertion of a pairwise prefix-free write set is invariant
under permutation of the writes. -/
theorem insertAll_perm {ws₁ ws₂ : List (List String × UNode)} (hp : ws₁.Perm ws₂) :
    ∀ t : UNode, NodupU t → (∀ w ∈ ws₁, NodupU w.2) →
    ws₁.Pairwise (fun a b => ¬ a.1 <+: b.1 ∧ ¬ b.1 <+: a.1) →
    insertAll t ws₁ = insertAll t ws₂ := by
  induction hp with
  | nil => intro t _ _ _; rfl
  | cons x h ih =>
    intro t ht hnd hpw
    rw [insertAll_cons, insertAll_cons]
    exact ih _ (NodupU_insertU x.1 x.2 t ht (hnd x (by simp)))
      (fun w hw => hnd w (List.mem_cons_of_mem _ hw)) (List.pairwise_cons.mp hpw).2
  | swap x y l =>
    intro t ht hnd hpw
    rw [insertAll_cons, insertAll_cons, insertAll_cons, insertAll_cons]
    have hxy := (List.pairwise_cons.mp hpw).1 x (by simp)
    rw [insertU_comm y.1 x.1 y.2 x.2 t ht hxy.1 hxy.2]
  | trans h₁ h₂ ih₁ ih₂ =>
    intro t ht hnd hpw
    exact (ih₁ t ht hnd hpw).trans (ih₂ t ht
      (fun w hw => hnd w (h₁.mem_iff.mpr hw))
      ((h₁.pairwise_iff (fun hab => ⟨hab.2, hab.1⟩)).mp hpw))

theorem Flush_node_open (nm : String) (cs : List FsNode) (o : Option UNode) :
    ((Builder.mk (.mk nm none cs) o).Flush).1.node = some (buildVal (.mk nm none cs)) := rfl

/-- C4 (amended): for a pairwise prefix-free set of file writes, two
builders populated with the same writes in different orders flush to the
same cached root node, hence the same root hash.  (The unrestricted
claim is refuted by `C4_insertion_order_independence_counterexample`.) -/
theorem C4_insertion_order_independence (ws₁ ws₂ : List (String × UNode))
    (hperm : ws₁.Perm ws₂)
    (hfile : ∀ w ∈ ws₁, w.2.isFile = true)
    (hpw : (ws₁.map (fun w => splitOnSlash w.1)).Pairwise
      (fun a b => ¬ a <+: b ∧ ¬ b <+: a)) :
    ((ws₁.foldl (fun b w => b.WriteFileNode w.1 w.2) NewBuilder).Flush).1.node =
    ((ws₂.foldl (fun b w => b.WriteFileNode w.1 w.2) NewBuilder).Flush).1.node := by
  have hfile₂ : ∀ w ∈ ws₂, w.2.isFile = true := fun w hw => hfile w (hperm.mem_iff.mpr hw)
  have hsp : (ws₁.map (fun w => (splitOnSlash w.1, w.2))).Perm
      (ws₂.map (fun w => (splitOnSlash w.1, w.2))) := hperm.map _
  have hg0 : GoodTree (FsNode.mk ("") none []) := GoodTree.dirn _ [] (by simp) (by simp)
  have hnd0 : NodupU (.dir []) := NodupU.dir (by simp [keysNodup]) (by simp)
  have hcw₁ : ∀ w ∈ ws₁.map (fun w => (splitOnSlash w.1, w.2)),
      CanW (FsNode.mk ("") none []) w.1 ∧ w.2.isFile = true := by
    intro w hw
    rcases List.mem_map.mp hw with ⟨w₀, hw₀, rfl⟩
    exact ⟨CanW_fresh _ _ (splitOnSlash_ne_nil w₀.1), hfile w₀ hw₀⟩
  have hcw₂ : ∀ w ∈ ws₂.map (fun w => (splitOnSlash w.1, w.2)),
      CanW (FsNode.mk ("") none []) w.1 ∧ w.2.isFile = true := by
    intro w hw
    rcases List.mem_map.mp hw with ⟨w₀, hw₀, rfl⟩
    exact ⟨CanW_fresh _ _ (splitOnSlash_ne_nil w₀.1), hfile₂ w₀ hw₀⟩
  have hpw₁ : (ws₁.map (fun w => (splitOnSlash w.1, w.2))).Pairwise
      (fun a b => ¬ a.1 <+: b.1 ∧ ¬ b.1 <+: a.1) :=
    List.pairwise_map.mpr (List.pairwise_map.mp hpw)
  have hpw₂ := (hsp.pairwise_iff (fun hab => ⟨hab.2, hab.1⟩)).mp hpw₁
  have hsim₁ : buildVal (runWritesSegs (ws₁.map (fun w => (splitOnSlash w.1, w.2)))
      (FsNode.mk ("") none [])) =
      insertAll (.dir []) (ws₁.map (fun w => (splitOnSlash w.1, w.2))) :=
    buildVal_runWritesSegs _ _ hg0 hcw₁ hpw₁
  have hsim₂ : buildVal (runWritesSegs (ws₂.map (fun w => (splitOnSlash w.1, w.2)))
      (FsNode.mk ("") none [])) =
      insertAll (.dir []) (ws₂.map (fun w => (splitOnSlash w.1, w.2))) :=
    buildVal_runWritesSegs _ _ hg0 hcw₂ hpw₂
  have hcid₁ : (runWritesSegs (ws₁.map (fun w => (splitOnSlash w.1, w.2)))
      (FsNode.mk ("") none [])).cid = none := runWritesSegs_cid_none _ _ rfl
  have hcid₂ : (runWritesSegs (ws₂.map (fun w => (splitOnSlash w.1, w.2)))
      (FsNode.mk ("") none [])).cid = none := runWritesSegs_cid_none _ _ rfl
  rw [foldl_WriteFileNode, foldl_WriteFileNode]
  have hnb : NewBuilder.root = FsNode.mk ("") none [] := rfl
  rw [hnb]
  cases hr₁ : runWritesSegs (ws₁.map (fun w => (splitOnSlash w.1, w.2)))
      (FsNode.mk ("") none []) with
  | mk nm₁ c₁ cs₁ =>
    cases hr₂ : runWritesSegs (ws₂.map (fun w => (splitOnSlash w.1, w.2)))
        (FsNode.mk ("") none []) with
    | mk nm₂ c₂ cs₂ =>
      rw [hr₁] at hcid₁ hsim₁
      rw [hr₂] at hcid₂ hsim₂
      simp only [FsNode.cid_mk] at hcid₁ hcid₂
      subst hcid₁
      subst hcid₂
      rw [Flush_node_open, Flush_node_open, hsim₁, hsim₂]
      exact congrArg some (insertAll_perm hsp (.dir []) hnd0
        (fun w hw => nodupU_of_isFile (hcw₁ w hw).2) hpw₁)

theorem C4_insertion_order_independence_witness :
    (([(("a"), UNode.file 0), (("b"), UNode.file 1)] : List (String × UNode)).Perm
       ([(("b"), UNode.file 1), (("a"), UNode.file 0)]) ∧
     (∀ w ∈ ([(("a"), UNode.file 0), (("b"), UNode.file 1)] : List (String × UNode)),
        w.2.isFile = true) ∧
     (([(("a"), UNode.file 0), (("b"), UNode.file 1)] : List (String × UNode)).map
        (fun w => splitOnSlash w.1)).Pairwise (fun a b => ¬ a <+: b ∧ ¬ b <+: a)) ∧
    ((([(("a"), UNode.file 0), (("b"), UNode.file 1)] : List (String × UNode)).foldl
        (fun b w => b.WriteFileNode w.1 w.2) NewBuilder).Flush).1.node =
    ((([(("b"), UNode.file 1), (("a"), UNode.file 0)] : List (String × UNode)).foldl
        (fun b w => b.WriteFileNode w.1 w.2) NewBuilder).Flush).1.node :=
  ⟨⟨by decide, by decide, by decide⟩,
    C4_insertion_order_independence _ _ (by decide) (by decide) (by decide)⟩

/-- C4 as literally stated is false: writing `a` then `a/b` turns the
file at `a` into a directory, while the reverse order leaves a file at
`a`, so the two flushed root hashes differ. -/
theorem C4_insertion_order_independence_counterexample :
    ¬ (((([(("a"), UNode.file 0), (("a/b"), UNode.file 1)] : List (String × UNode)).foldl
          (fun b w => b.WriteFileNode w.1 w.2) NewBuilder).Flush).1.node =
       ((([(("a/b"), UNode.file 1), (("a"), UNode.file 0)] : List (String × UNode)).foldl
          (fun b w => b.WriteFileNode w.1 w.2) NewBuilder).Flush).1.node) := by decide

theorem insertU_last_empty (last : String) (u : UNode) :
    insertU [last] u (UNode.dir []) = UNode.dir [(last, u)] := by
  rw [insertU]
  simp [UNode.linksOf, sortLinks, insLink]

theorem insertU_last_replace (last : String) (u A : UNode) :
    insertU [last] u (UNode.dir [(last, A)]) = UNode.dir [(last, u)] := by
  rw [insertU]
  simp [UNode.linksOf, sortLinks, insLink]

theorem insertU_cons_empty (s : String) (rest : List String) (hne : rest ≠ []) (u : UNode) :
    insertU (s :: rest) u (UNode.dir []) =
      UNode.dir [(s, insertU rest u (UNode.dir []))] := by
  cases rest with
  | nil => exact absurd rfl hne
  | cons s2 r =>
    rw [insertU]
    simp [UNode.linksOf, assocFind, sortLinks, insLink]

theorem insertU_cons_found (s : String) (rest : List String) (hne : rest ≠ [])
    (u A : UNode) :
    insertU (s :: rest) u (UNode.dir [(s, A)]) =
      UNode.dir [(s, insertU rest u A)] := by
  cases rest with
  | nil => exact absurd rfl hne
  | cons s2 r =>
    rw [insertU]
    simp [UNode.linksOf, assocFind_cons, sortLinks, insLink]

/-- Two successive writes to the same path on a fresh root flush to the
canonical double insertion (whose parent directory the serializer
deduplicates last-wins). -/
theorem doubleWrite_buildVal : ∀ (segs : List String) (u₁ u₂ : UNode) (nm : String),
    segs ≠ [] →
    buildVal (writeSegs segs u₂ (writeSegs segs u₁ (.mk nm none []))) =
    insertU segs u₂ (insertU segs u₁ (.dir []))
  | [], _, _, _, h => absurd rfl h
  | [last], u₁, u₂, nm, _ => by
    have h1 : writeSegs [last] u₁ (FsNode.mk nm none []) =
        FsNode.mk nm none [FsNode.mk last (some u₁) []] := by
      rw [writeSegs_single,
        unpack_open (show (FsNode.mk nm none []).cid = none from rfl), addChild_open]
      rfl
    have h2 : writeSegs [last] u₂ (FsNode.mk nm none [FsNode.mk last (some u₁) []]) =
        FsNode.mk nm none [FsNode.mk last (some u₁) [], FsNode.mk last (some u₂) []] := by
      rw [writeSegs_single,
        unpack_open (show (FsNode.mk nm none [FsNode.mk last (some u₁) []]).cid = none
          from rfl), addChild_open]
      rfl
    rw [h1, h2]
    rw [insertU_last_empty, insertU_last_replace]
    unfold buildVal
    rw [buildNode_open]
    simp [addLink, sortLinks, insLink]
  | s :: s2 :: rest, u₁, u₂, nm, _ => by
    have h1 : writeSegs (s :: s2 :: rest) u₁ (FsNode.mk nm none []) =
        FsNode.mk nm none [writeSegs (s2 :: rest) u₁ (FsNode.mk s none [])] := by
      rw [writeSegs_cons₂_open]
      rw [updFirst_not_found _ (by simp)]
      rfl
    have hname : (writeSegs (s2 :: rest) u₁ (FsNode.mk s none [])).name = s := by
      rw [writeSegs_name]
      rfl
    have h2 : writeSegs (s :: s2 :: rest) u₂
        (FsNode.mk nm none [writeSegs (s2 :: rest) u₁ (FsNode.mk s none [])]) =
        FsNode.mk nm none
          [writeSegs (s2 :: rest) u₂ (writeSegs (s2 :: rest) u₁ (FsNode.mk s none []))] := by
      rw [writeSegs_cons₂_open]
      rw [updFirst]
      simp [hname]
    rw [h1, h2]
    rw [buildVal_open_nodup (by simp)]
    simp only [List.map_cons, List.map_nil, pairOf]
    have hname₂ : (writeSegs (s2 :: rest) u₂
        (writeSegs (s2 :: rest) u₁ (FsNode.mk s none []))).name = s := by
      rw [writeSegs_name, writeSegs_name]
      rfl
    rw [hname₂]
    rw [doubleWrite_buildVal (s2 :: rest) u₁ u₂ s (by simp)]
    rw [insertU_cons_empty s (s2 :: rest) (by simp) u₁,
      insertU_cons_found s (s2 :: rest) (by simp) u₂]
    simp [sortLinks, insLink]

/-- The canonical double insertion resolves the parent path to a
directory holding exactly the final entry with the second node. -/
theorem lookupU_doubleInsert : ∀ (pre : List String) (last : String) (u₁ u₂ : UNode),
    lookupU (insertU (pre ++ [last]) u₂ (insertU (pre ++ [last]) u₁ (.dir []))) pre =
    some (.dir [(last, u₂)])
  | [], last, u₁, u₂ => by
    rw [List.nil_append, insertU_last_empty, insertU_last_replace]
    rfl
  | s :: pre', last, u₁, u₂ => by
    rw [List.cons_append]
    rw [insertU_cons_empty s (pre' ++ [last]) (by simp) u₁,
      insertU_cons_found s (pre' ++ [last]) (by simp) u₂]
    rw [lookupU_cons]
    have hfind : assocFind [(s, insertU (pre' ++ [last]) u₂
        (insertU (pre' ++ [last]) u₁ (UNode.dir [])))] s =
        some (insertU (pre' ++ [last]) u₂ (insertU (pre' ++ [last]) u₁ (UNode.dir []))) := by
      rw [assocFind_cons]
      simp
    simp only [linksOf_dir]
    rw [hfind]
    exact lookupU_doubleInsert pre' last u₁ u₂

/-- C2 (amended): after writing the same path twice on a fresh builder
and flushing, the stored parent directory holds exactly one entry, named
with the path's final segment and carrying the second node's hash.  (At
the in-memory builder level the claim is refuted by
`C2_overwrite_replaces_counterexample`: `addChild` appends a duplicate
entry, which only the serializer deduplicates.) -/
theorem C2_overwrite_replaces (p : String) (pre : List String) (last : String)
    (hsplit : splitOnSlash p = pre ++ [last]) (u₁ u₂ : UNode) :
    ∃ r : UNode,
      (((NewBuilder.WriteFileNode p u₁).WriteFileNode p u₂).Flush).1.node = some r ∧
      lookupU r pre = some (.dir [(last, u₂)]) := by
  have hne : splitOnSlash p ≠ [] := splitOnSlash_ne_nil p
  have hroot : ((NewBuilder.WriteFileNode p u₁).WriteFileNode p u₂).root =
      writeSegs (splitOnSlash p) u₂ (writeSegs (splitOnSlash p) u₁ (.mk ("") none [])) := rfl
  have hcid : (writeSegs (splitOnSlash p) u₂
      (writeSegs (splitOnSlash p) u₁ (.mk ("") none []))).cid = none :=
    writeSegs_cid_none _ u₂ _ hne
  have hval : buildVal (writeSegs (splitOnSlash p) u₂
      (writeSegs (splitOnSlash p) u₁ (.mk ("") none []))) =
      insertU (pre ++ [last]) u₂ (insertU (pre ++ [last]) u₁ (.dir [])) := by
    rw [doubleWrite_buildVal (splitOnSlash p) u₁ u₂ ("") hne, hsplit]
  refine ⟨insertU (pre ++ [last]) u₂ (insertU (pre ++ [last]) u₁ (.dir [])), ?_,
    lookupU_doubleInsert pre last u₁ u₂⟩
  cases hr : writeSegs (splitOnSlash p) u₂
      (writeSegs (splitOnSlash p) u₁ (.mk ("") none [])) with
  | mk nm c cs =>
    rw [hr] at hcid hval
    simp only [FsNode.cid_mk] at hcid
    subst hcid
    have hb : (NewBuilder.WriteFileNode p u₁).WriteFileNode p u₂ =
        ⟨.mk nm none cs, none⟩ := by
      rw [← hr]
      rfl
    rw [hb, Flush_node_open, hval]

theorem C2_overwrite_replaces_witness :
    (splitOnSlash ("a/hello.txt") = [("a")] ++ [("hello.txt")]) ∧
    (∃ r : UNode,
      (((NewBuilder.WriteFileNode ("a/hello.txt") (UNode.file 0)).WriteFileNode
          ("a/hello.txt") (UNode.file 1)).Flush).1.node = some r ∧
      lookupU r [("a")] = some (.dir [(("hello.txt"), UNode.file 1)])) :=
  ⟨by decide, C2_overwrite_replaces ("a/hello.txt") [("a")] ("hello.txt")
    (by decide) (UNode.file 0) (UNode.file 1)⟩

/-- C2 as literally stated is false at the builder-tree level: the
second `WriteFileNode` to the same path appends a second child entry
with the same name to the parent instead of replacing the first. -/
theorem C2_overwrite_replaces_counterexample :
    ((((NewBuilder.WriteFileNode ("a/hello.txt") (UNode.file 0)).WriteFileNode
        ("a/hello.txt") (UNode.file 1)).root.children.map FsNode.name = [("a")]) ∧
     ((((NewBuilder.WriteFileNode ("a/hello.txt") (UNode.file 0)).WriteFileNode
        ("a/hello.txt") (UNode.file 1)).root.children.map
          (fun c => c.children.map FsNode.name)) =
        [[("hello.txt"), ("hello.txt")]])) := by decide

/-- C3: Flush is idempotent.  Re-flushing a just-flushed builder
performs zero store puts, leaves the builder unchanged, and hence
returns the same cached root node (hash). -/
theorem C3_flush_idempotent (b : Builder) :
    ((b.Flush).1).Flush = ((b.Flush).1, 0) := by
  cases b with
  | mk root node =>
    cases root with
    | mk nm c cs =>
      cases c with
      | none => rfl
      | some v => rfl

theorem mkdirSegs_name : ∀ (segs : List String) (n : FsNode),
    (mkdirSegs segs n).name = n.name
  | [], _ => rfl
  | s :: rest, n => by
    rw [mkdirSegs]
    by_cases hs : s = ("")
    · simp [hs]
    · simp only [hs, if_false]
      cases h : unpack n with
      | mk nm c cs =>
        have := unpack_name n
        rw [h] at this
        simpa using this

theorem updFirst_idem {s : String} {f : FsNode → FsNode}
    (hfname : ∀ x, (f x).name = x.name) (hfidem : ∀ x, f (f x) = f x) :
    ∀ cs : List FsNode, updFirst (updFirst cs s f) s f = updFirst cs s f
  | [] => by
    rw [updFirst, updFirst]
    have hnm : (f (FsNode.mk s none [])).name = s := by rw [hfname]; rfl
    simp [hnm, hfidem]
  | c :: cs => by
    rw [updFirst]
    by_cases hc : c.name = s
    · simp only [hc, if_true]
      rw [updFirst]
      have hnm : (f c).name = s := by rw [hfname]; exact hc
      simp [hnm, hfidem]
    · simp only [hc, if_false]
      rw [updFirst]
      simp only [hc, if_false]
      rw [updFirst_idem hfname hfidem cs]

theorem mkdirSegs_cons_eq {s : String} {n : FsNode} {nm : String} {c : Option UNode}
    {cs : List FsNode} (hs : ¬ s = ("")) (rest : List String)
    (h : unpack n = FsNode.mk nm c cs) :
    mkdirSegs (s :: rest) n = FsNode.mk nm c (updFirst cs s (mkdirSegs rest)) := by
  rw [mkdirSegs]
  simp only [hs, if_false]
  rw [h]

theorem mkdirSegs_idem : ∀ (segs : List String) (n : FsNode),
    mkdirSegs segs (mkdirSegs segs n) = mkdirSegs segs n
  | [], _ => rfl
  | s :: rest, n => by
    by_cases hs : s = ("")
    · have h1 : mkdirSegs (s :: rest) n = n := by
        rw [mkdirSegs]
        simp [hs]
      rw [h1]
      exact h1
    · cases h : unpack n with
      | mk nm c cs =>
        have hc : c = none := by
          have := unpack_cid n
          rw [h] at this
          simpa using this
        subst hc
        have h1 := mkdirSegs_cons_eq hs rest h
        rw [h1]
        have h2 : unpack (FsNode.mk nm none (updFirst cs s (mkdirSegs rest))) =
            FsNode.mk nm none (updFirst cs s (mkdirSegs rest)) :=
          unpack_open (show (FsNode.mk nm none (updFirst cs s (mkdirSegs rest))).cid = none
            from rfl)
        have h3 := mkdirSegs_cons_eq hs rest h2
        rw [h3, updFirst_idem (fun x => mkdirSegs_name rest x)
          (fun x => mkdirSegs_idem rest x) cs]

/-- C5: `MkdirAll` is idempotent — a second identical call leaves the
builder tree unchanged (no duplicate children) — and `unpack` on an
already-open node is a no-op performing zero store fetches. -/
theorem C5_mkdirAll_idempotent :
    (∀ (b : Builder) (p : String), (b.MkdirAll p).MkdirAll p = b.MkdirAll p) ∧
    (∀ n : FsNode, n.cid = none → unpack n = n ∧ unpackGets n = 0) := by
  constructor
  · intro b p
    show (⟨mkdirSegs (splitOnSlash p) (mkdirSegs (splitOnSlash p) b.root), b.node⟩ : Builder) =
      b.MkdirAll p
    rw [mkdirSegs_idem]
    rfl
  · intro n h
    refine ⟨unpack_open h, ?_⟩
    unfold unpackGets
    rw [h]

theorem C5_mkdirAll_idempotent_witness :
    ((FsNode.mk ("x") none []).cid = none) ∧
    ((NewBuilder.MkdirAll ("a/b")).MkdirAll ("a/b") = NewBuilder.MkdirAll ("a/b")) ∧
    (unpack (FsNode.mk ("x") none []) = FsNode.mk ("x") none [] ∧
      unpackGets (FsNode.mk ("x") none []) = 0) :=
  ⟨rfl, C5_mkdirAll_idempotent.1 NewBuilder ("a/b"),
    C5_mkdirAll_idempotent.2 (FsNode.mk ("x") none []) rfl⟩

theorem dirEntry_name {u : UNode} {nm : String} {h : Handle}
    (he : dirEntry u nm = .ok h) : h.hname = nm := by
  unfold dirEntry at he
  cases hf : dirFind u nm with
  | none => rw [hf] at he; cases he
  | some child =>
    rw [hf] at he
    cases child with
    | dir ls =>
      simp only [Except.ok.injEq] at he
      rw [← he]
      rfl
    | file i =>
      simp only [Except.ok.injEq] at he
      rw [← he]
      rfl

/-- The entries built by the shared loop carry the processed prefix of
the name list, in order. -/
theorem readEntriesAcc_names_prefix : ∀ (u : UNode) (ns : List String),
    ∃ k, ((readEntriesAcc u ns).1).map Handle.hname = ns.take k
  | _, [] => ⟨0, rfl⟩
  | u, nm :: rest => by
    rw [readEntriesAcc]
    cases he : dirEntry u nm with
    | error e => exact ⟨0, rfl⟩
    | ok h =>
      rcases readEntriesAcc_names_prefix u rest with ⟨k, hk⟩
      cases hacc : readEntriesAcc u rest with
      | mk hs e? =>
        refine ⟨k + 1, ?_⟩
        simp only [List.map_cons, List.take_succ_cons]
        rw [hacc] at hk
        simp only at hk
        rw [hk, dirEntry_name he]

/-- A fully successful entry loop consumes every name in order. -/
theorem readEntriesAcc_ok_names : ∀ (u : UNode) (ns : List String),
    (readEntriesAcc u ns).2 = none → ((readEntriesAcc u ns).1).map Handle.hname = ns
  | _, [], _ => rfl
  | u, nm :: rest, hok => by
    rw [readEntriesAcc] at hok ⊢
    cases he : dirEntry u nm with
    | error e =>
      rw [he] at hok
      cases hok
    | ok h =>
      rw [he] at hok
      cases hacc : readEntriesAcc u rest with
      | mk hs e? =>
        rw [hacc] at hok
        simp only at hok
        have := readEntriesAcc_ok_names u rest (by rw [hacc]; exact hok)
        rw [hacc] at this
        simp only at this
        simp only [List.map_cons, this, dirEntry_name he]

/-- C6 (amended): `FS.ReadDir` returns entries sorted byte-wise
ascending by name, but a directory handle's paged `Dir.ReadDir` returns
the next entries in the stored link order of the directory (no sort),
advancing the offset.  (The claim that paging is also lexicographic is
refuted by `C6_listing_order_counterexample`.) -/
theorem ReadDir_eq (fs : FSm) (p : String) :
    fs.ReadDir p =
      match locateNode fs (if p = (".") then ("") else p) with
      | .error e => ([], some (PathErr.mk ("readdir") (if p = (".") then ("") else p) e))
      | .ok (node, _) =>
        match node with
        | .file _ =>
          ([], some (PathErr.mk ("readdir") (if p = (".") then ("") else p) .invalid))
        | .dir ls =>
          match readEntriesAcc node (sortStrings (ls.map (fun e => e.1))) with
          | (hs, none) => (hs, none)
          | (hs, some (nm, e)) => (hs, some (PathErr.mk ("readdir") nm e)) := rfl

theorem readDir_eq (dn : String) (dnode : UNode) (off : Nat) (limit : Int) :
    (DirHandle.mk dn dnode (some (listNames dnode)) off).readDir limit =
      (if (listNames dnode).length - off = 0 ∧ 0 < limit then
        ((DirHandle.mk dn dnode (some (listNames dnode)) off), ([], some DirErr.eof))
      else
        match readEntriesAcc dnode (((listNames dnode).drop off).take
            (if 0 < limit ∧ (limit.toNat < (listNames dnode).length - off) then limit.toNat
             else (listNames dnode).length - off)) with
        | (hs, none) => (DirHandle.mk dn dnode (some (listNames dnode))
            (off + (if 0 < limit ∧ (limit.toNat < (listNames dnode).length - off)
              then limit.toNat else (listNames dnode).length - off)), (hs, none))
        | (hs, some (nm, e)) => (DirHandle.mk dn dnode (some (listNames dnode))
            (off + hs.length), (hs, some (DirErr.perr (PathErr.mk ("readdir") nm e))))) := rfl

/-- C6 (amended): `FS.ReadDir` returns entries sorted byte-wise
ascending by name, but a directory handle's paged `Dir.ReadDir` returns
the next entries in the stored link order of the directory (no sort),
advancing the offset.  (The claim that paging is also lexicographic is
refuted by `C6_listing_order_counterexample`.) -/
theorem C6_listing_order :
    (∀ (fs : FSm) (p : String),
      (((fs.ReadDir p).1).map Handle.hname).Pairwise (fun a b => strLe a b = true)) ∧
    (∀ (d : DirHandle) (limit : Int) (d' : DirHandle) (hs : List Handle),
      d.names = some (listNames d.dnode) →
      d.readDir limit = (d', (hs, none)) →
      hs.map Handle.hname = ((listNames d.dnode).drop d.offset).take hs.length ∧
      d'.offset = d.offset + hs.length) := by
  constructor
  · intro fs p
    rw [ReadDir_eq fs p]
    cases hloc : locateNode fs (if p = (".") then ("") else p) with
    | error e => simp
    | ok pr =>
      cases pr with
      | mk node nodeName =>
        cases node with
        | file i => simp
        | dir ls =>
          rcases readEntriesAcc_names_prefix (UNode.dir ls)
            (sortStrings (ls.map (fun e => e.1))) with ⟨k, hk⟩
          cases hacc : readEntriesAcc (UNode.dir ls)
              (sortStrings (ls.map (fun e => e.1))) with
          | mk hs e? =>
            rw [hacc] at hk
            simp only at hk
            have hsorted : ((sortStrings (ls.map (fun e => e.1))).take k).Pairwise
                (fun a b => strLe a b = true) :=
              (sortStrings_sorted _).sublist (List.take_sublist _ _)
            cases e? with
            | none => simpa [hacc, hk] using hsorted
            | some pe =>
              cases pe with
              | mk nm e => simpa [hacc, hk] using hsorted
  · intro d limit d' hs hnames hcall
    cases d with
    | mk dn dnode names off =>
      simp only at hnames
      subst hnames
      rw [readDir_eq] at hcall
      simp only at hcall ⊢
      by_cases hif : ((listNames dnode).length - off = 0 ∧ 0 < limit)
      · rw [if_pos hif] at hcall
        simp at hcall
      · rw [if_neg hif] at hcall
        cases hacc : readEntriesAcc dnode (((listNames dnode).drop off).take
            (if 0 < limit ∧ limit.toNat < (listNames dnode).length - off
             then limit.toNat else (listNames dnode).length - off)) with
        | mk hs₀ e₀ =>
          rw [hacc] at hcall
          cases e₀ with
          | some pe =>
            rcases pe with ⟨nm, e⟩
            simp at hcall
          | none =>
            simp only [Prod.mk.injEq] at hcall
            rcases hcall with ⟨hd', hhs, -⟩
            subst hhs
            have hmap : hs₀.map Handle.hname = ((listNames dnode).drop off).take
                (if 0 < limit ∧ limit.toNat < (listNames dnode).length - off
                 then limit.toNat else (listNames dnode).length - off) := by
              have h := readEntriesAcc_ok_names dnode (((listNames dnode).drop off).take
                (if 0 < limit ∧ limit.toNat < (listNames dnode).length - off
                 then limit.toNat else (listNames dnode).length - off))
                (by rw [hacc])
              rw [hacc] at h
              simpa using h
            have hlen : hs₀.length = (((listNames dnode).drop off).take
                (if 0 < limit ∧ limit.toNat < (listNames dnode).length - off
                 then limit.toNat else (listNames dnode).length - off)).length := by
              rw [← List.length_map hs₀ Handle.hname, hmap]
            constructor
            · rw [hmap, hlen, List.length_take, List.length_drop]
              rw [← List.take_take, ← List.length_drop off (listNames dnode),
                List.take_length]
            · rw [← hd']
              simp only
              rw [hlen, List.length_take, List.length_drop]
              congr 1
              by_cases hlim : (0 < limit ∧ limit.toNat < (listNames dnode).length - off)
              · rw [if_pos hlim]
                exact (Nat.min_eq_left (Nat.le_of_lt hlim.2)).symm
              · rw [if_neg hlim]
                exact (Nat.min_eq_left (Nat.le_refl _)).symm

theorem C6_listing_order_witness :
    ((DirHandle.mk ("d") (UNode.dir [(("b"), UNode.file 0)]) (some [("b")]) 0).names =
        some (listNames (UNode.dir [(("b"), UNode.file 0)])) ∧
     (DirHandle.mk ("d") (UNode.dir [(("b"), UNode.file 0)]) (some [("b")]) 0).readDir 0 =
        (DirHandle.mk ("d") (UNode.dir [(("b"), UNode.file 0)]) (some [("b")]) 1,
          ([Handle.fileH (FileHandle.mk ("b") (UNode.file 0))], none))) ∧
    ((((FSm.mk (UNode.dir [(("b"), UNode.file 0), (("a"), UNode.file 1)])).ReadDir
        (".")).1.map Handle.hname).Pairwise (fun a b => strLe a b = true) ∧
     ([Handle.fileH (FileHandle.mk ("b") (UNode.file 0))].map Handle.hname =
        ((listNames (UNode.dir [(("b"), UNode.file 0)])).drop
          (DirHandle.mk ("d") (UNode.dir [(("b"), UNode.file 0)]) (some [("b")]) 0).offset).take
          ([Handle.fileH (FileHandle.mk ("b") (UNode.file 0))].length) ∧
      (DirHandle.mk ("d") (UNode.dir [(("b"), UNode.file 0)]) (some [("b")]) 1).offset =
        (DirHandle.mk ("d") (UNode.dir [(("b"), UNode.file 0)]) (some [("b")]) 0).offset +
          ([Handle.fileH (FileHandle.mk ("b") (UNode.file 0))].length))) :=
  ⟨⟨by decide, by decide⟩,
    C6_listing_order.1
      (FSm.mk (UNode.dir [(("b"), UNode.file 0), (("a"), UNode.file 1)])) ("."),
    C6_listing_order.2
      (DirHandle.mk ("d") (UNode.dir [(("b"), UNode.file 0)]) (some [("b")]) 0) 0
      (DirHandle.mk ("d") (UNode.dir [(("b"), UNode.file 0)]) (some [("b")]) 1)
      [Handle.fileH (FileHandle.mk ("b") (UNode.file 0))] (by decide) (by decide)⟩

/-- The paged `Dir.ReadDir` is not lexicographic: on a directory stored
as `b, a` a fresh handle returned by `Open` pages the entries in stored
order `b, a`. -/
theorem C6_listing_order_counterexample :
    ¬ ((((newDir ("") (UNode.dir [(("b"), UNode.file 0),
        (("a"), UNode.file 1)])).readDir 0).2.1.map
        Handle.hname).Pairwise (fun a b => strLe a b = true)) := by decide

/-- A walk that passes through a file on a non-terminal segment fails
with `fs.ErrInvalid` (`uio.ErrNotADir`). -/
theorem walkParts_file : ∀ (pre : List String) (L : List (String × UNode)) (i : Nat)
    (s : String) (rest : List String),
    lookupU (.dir L) pre = some (.file i) →
    walkParts L (pre ++ s :: rest) = .error .invalid
  | [], L, i, s, rest, h => by
    simp only [lookupU_nil, Option.some.injEq] at h
    cases h
  | [a], L, i, s, rest, h => by
    rw [lookupU_cons] at h
    simp only [linksOf_dir] at h
    cases hf : assocFind L a with
    | none =>
      rw [hf] at h
      cases h
    | some c =>
      rw [hf] at h
      simp only [lookupU_nil, Option.some.injEq] at h
      subst h
      rw [List.cons_append, List.nil_append, walkParts, hf]
      intro hcon
      cases hcon
  | a :: a2 :: pre', L, i, s, rest, h => by
    rw [lookupU_cons] at h
    simp only [linksOf_dir] at h
    cases hf : assocFind L a with
    | none =>
      rw [hf] at h
      cases h
    | some c =>
      rw [hf] at h
      cases c with
      | file j =>
        rw [List.cons_append, walkParts, hf]
        intro hcon
        cases hcon
      | dir d =>
        rw [List.cons_append, walkParts, hf]
        · exact walkParts_file (a2 :: pre') d i s rest h
        · intro hcon
          cases hcon

/-- A walk whose next segment is absent from its (directory) parent
fails with `fs.ErrNotExist`. -/
theorem walkParts_miss (pre : List String) (L d : List (String × UNode))
    (s : String) (rest : List String)
    (hlook : lookupU (.dir L) pre = some (.dir d)) (hmiss : assocFind d s = none) :
    walkParts L (pre ++ s :: rest) = .error .notExist := by
  rw [walkParts_append pre L d s rest hlook]
  cases rest with
  | nil =>
    rw [walkParts_single, hmiss]
  | cons r rs =>
    rw [walkParts, hmiss]
    intro hcon
    cases hcon

theorem Open_error_of_walk {fs : FSm} {p : String} {e : BaseErr}
    (hseg : ∀ q ∈ splitOnSlash p, q ≠ ("") ∧ q ≠ (".") ∧ q ≠ (".."))
    (hwp : walkParts fs.root.linksOf (splitOnSlash p) = .error e) :
    fs.Open p = .error ⟨("open"), p, e⟩ := by
  have hvalid := validPath_of_segs hseg
  have hdot := ne_dot_of_segs hseg
  have hns := ne_singleton_empty_of_segs hseg
  have hempty : ("") ∉ splitOnSlash p := fun hc => (hseg _ hc).1 rfl
  have htrim := trimSlash_eq_self hempty
  have hloc : locateNode fs p = .error e := by
    simp only [locateNode]
    rw [htrim, if_neg hns, hwp]
  simp only [FSm.Open, hvalid, Bool.not_true, if_false, if_neg hdot, hloc]
  simp

/-- C7: a path that traverses a file at a non-terminal segment makes
`FS.Open` fail with `fs.ErrInvalid` (not-a-directory), while a path
whose next segment is absent from its parent directory fails with
`fs.ErrNotExist`. -/
theorem C7_notdir_vs_notexist :
    (∀ (fs : FSm) (p : String) (pre : List String) (s : String) (rest : List String)
      (i : Nat),
      (∀ q ∈ splitOnSlash p, q ≠ ("") ∧ q ≠ (".") ∧ q ≠ ("..")) →
      splitOnSlash p = pre ++ s :: rest →
      lookupU (.dir fs.root.linksOf) pre = some (.file i) →
      fs.Open p = .error ⟨("open"), p, .invalid⟩) ∧
    (∀ (fs : FSm) (p : String) (pre : List String) (s : String) (rest : List String)
      (d : List (String × UNode)),
      (∀ q ∈ splitOnSlash p, q ≠ ("") ∧ q ≠ (".") ∧ q ≠ ("..")) →
      splitOnSlash p = pre ++ s :: rest →
      lookupU (.dir fs.root.linksOf) pre = some (.dir d) →
      assocFind d s = none →
      fs.Open p = .error ⟨("open"), p, .notExist⟩) := by
  constructor
  · intro fs p pre s rest i hseg hsplit hlook
    refine Open_error_of_walk hseg ?_
    rw [hsplit]
    exact walkParts_file pre _ i s rest hlook
  · intro fs p pre s rest d hseg hsplit hlook hmiss
    refine Open_error_of_walk hseg ?_
    rw [hsplit]
    exact walkParts_miss pre _ d s rest hlook hmiss

theorem C7_notdir_vs_notexist_witness :
    ((∀ q ∈ splitOnSlash ("a/hello.txt/x"), q ≠ ("") ∧ q ≠ (".") ∧ q ≠ ("..")) ∧
     splitOnSlash ("a/hello.txt/x") = [("a"), ("hello.txt")] ++ [("x")] ∧
     lookupU (.dir (FSm.mk (UNode.dir
         [(("a"), UNode.dir [(("hello.txt"), UNode.file 0)])])).root.linksOf)
       [("a"), ("hello.txt")] = some (.file 0) ∧
     (∀ q ∈ splitOnSlash ("a/missing"), q ≠ ("") ∧ q ≠ (".") ∧ q ≠ ("..")) ∧
     splitOnSlash ("a/missing") = [("a")] ++ [("missing")] ∧
     lookupU (.dir (FSm.mk (UNode.dir
         [(("a"), UNode.dir [(("hello.txt"), UNode.file 0)])])).root.linksOf)
       [("a")] = some (.dir [(("hello.txt"), UNode.file 0)]) ∧
     assocFind [(("hello.txt"), UNode.file 0)] ("missing") = none) ∧
    ((FSm.mk (UNode.dir [(("a"), UNode.dir [(("hello.txt"), UNode.file 0)])])).Open
        ("a/hello.txt/x") = .error ⟨("open"), ("a/hello.txt/x"), .invalid⟩ ∧
     (FSm.mk (UNode.dir [(("a"), UNode.dir [(("hello.txt"), UNode.file 0)])])).Open
        ("a/missing") = .error ⟨("open"), ("a/missing"), .notExist⟩) :=
  ⟨⟨by decide, by decide, by decide, by decide, by decide, by decide, by decide⟩,
    C7_notdir_vs_notexist.1
      (FSm.mk (UNode.dir [(("a"), UNode.dir [(("hello.txt"), UNode.file 0)])]))
      ("a/hello.txt/x") [("a"), ("hello.txt")] ("x") [] 0
      (by decide) (by decide) (by decide),
    C7_notdir_vs_notexist.2
      (FSm.mk (UNode.dir [(("a"), UNode.dir [(("hello.txt"), UNode.file 0)])]))
      ("a/missing") [("a")] ("missing") [] [(("hello.txt"), UNode.file 0)]
      (by decide) (by decide) (by decide) (by decide)⟩

/-- C8 (amended): `FS.Open` fails fast with `fs.ErrInvalid` on every
path rejected by `fs.ValidPath`, before touching the store; but
`FS.Sub` and `FS.ReadDir` perform no validity check — they trim
slashes and resolve, so the invalid path `"/"` is accepted and treated
as the root.  (The full fail-fast claim is refuted by
`C8_invalid_fail_fast_counterexample`.) -/
theorem C8_invalid_fail_fast :
    (∀ (fs : FSm) (p : String), validPath p = false →
      fs.Open p = .error ⟨("open"), p, .invalid⟩) ∧
    (∀ ls : List (String × UNode),
      (FSm.mk (.dir ls)).Sub ("/") = .ok (FSm.mk (.dir ls)) ∧
      (FSm.mk (.dir ls)).ReadDir ("/") = (FSm.mk (.dir ls)).ReadDir (".")) := by
  constructor
  · intro fs p hv
    simp only [FSm.Open, hv]
    simp
  · intro ls
    have hloc : locateNode (FSm.mk (.dir ls)) ("/") = .ok (.dir ls, ("")) := by
      simp only [locateNode]
      have hparts : splitOnSlash (trimSlash ("/")) = [("")] := by decide
      rw [hparts, if_pos rfl]
    have hloc2 : locateNode (FSm.mk (.dir ls)) ("") = .ok (.dir ls, ("")) := by
      simp only [locateNode]
      have hparts : splitOnSlash (trimSlash ("")) = [("")] := by decide
      rw [hparts, if_pos rfl]
    constructor
    · simp only [FSm.Sub, hloc]
    · rw [ReadDir_eq, ReadDir_eq]
      have h1 : (if ("/") = (".") then ("") else ("/")) = ("/") := by decide
      have h2 : (if (".") = (".") then ("") else (".")) = ("") := by decide
      rw [h1, h2, hloc, hloc2]

theorem C8_invalid_fail_fast_witness :
    (validPath ("//") = false) ∧
    ((FSm.mk (UNode.dir [])).Open ("//") = .error ⟨("open"), ("//"), .invalid⟩) ∧
    ((FSm.mk (UNode.dir [])).Sub ("/") = .ok (FSm.mk (UNode.dir [])) ∧
     (FSm.mk (UNode.dir [])).ReadDir ("/") = (FSm.mk (UNode.dir [])).ReadDir (".")) :=
  ⟨by decide, C8_invalid_fail_fast.1 (FSm.mk (UNode.dir [])) ("//") (by decide),
    C8_invalid_fail_fast.2 []⟩

/-- C8 as literally stated is false: `"/"` violates the path grammar,
yet `FS.ReadDir` and `FS.Sub` accept it (no fail-fast validity check). -/
theorem C8_invalid_fail_fast_counterexample :
    validPath ("/") = false ∧
    ((FSm.mk (UNode.dir [(("a"), UNode.file 0)])).ReadDir ("/")).2 = none ∧
    (FSm.mk (UNode.dir [(("a"), UNode.file 0)])).Sub ("/") =
      .ok (FSm.mk (UNode.dir [(("a"), UNode.file 0)])) := by decide

/-- The Sealed/Open invariant of builder fsnodes: a sealed node has a
cid and no children; an open node has no cid and an explicit child
list (all recursively well-formed). -/
inductive SOInv : FsNode → Prop where
  | sealed (nm : String) (u : UNode) : SOInv (.mk nm (some u) [])
  | opened (nm : String) (cs : List FsNode) : (∀ c ∈ cs, SOInv c) →
      SOInv (.mk nm none cs)

/-- A builder mutation step: the operations a client can run. -/
inductive BOp : Type where
  | mkdir (p : String) : BOp
  | write (p : String) (u : UNode) : BOp
  | flush : BOp

/-- Run a sequence of builder operations. -/
def runOps : List BOp → Builder → Builder
  | [], b => b
  | .mkdir p :: ops, b => runOps ops (b.MkdirAll p)
  | .write p u :: ops, b => runOps ops (b.WriteFileNode p u)
  | .flush :: ops, b => runOps ops ((b.Flush).1)

theorem SOInv_unpack {n : FsNode} (h : SOInv n) : SOInv (unpack n) := by
  cases h with
  | sealed nm u =>
    rw [unpack_sealed]
    refine SOInv.opened nm _ ?_
    intro c hc
    rcases List.mem_map.mp hc with ⟨e, _, rfl⟩
    exact SOInv.sealed e.1 e.2
  | opened nm cs hcs =>
    rw [unpack_open (show (FsNode.mk nm none cs).cid = none from rfl)]
    exact SOInv.opened nm cs hcs

theorem SOInv_updFirst {cs : List FsNode} {s : String} {f : FsNode → FsNode}
    (hcs : ∀ c ∈ cs, SOInv c) (hf : ∀ x, SOInv x → SOInv (f x)) :
    ∀ c ∈ updFirst cs s f, SOInv c := by
  induction cs with
  | nil =>
    rw [updFirst]
    intro c hc
    rcases List.mem_singleton.mp hc with rfl
    exact hf _ (SOInv.opened s [] (by simp))
  | cons c₀ cs ih =>
    rw [updFirst]
    by_cases h : c₀.name = s
    · simp only [h, if_true]
      intro c hc
      rcases List.mem_cons.mp hc with rfl | hc'
      · exact hf c₀ (hcs c₀ (by simp))
      · exact hcs c (List.mem_cons_of_mem _ hc')
    · simp only [h, if_false]
      intro c hc
      rcases List.mem_cons.mp hc with rfl | hc'
      · exact hcs c (by simp)
      · exact ih (fun c hc => hcs c (List.mem_cons_of_mem _ hc)) c hc'

theorem SOInv_children {nm : String} {c : Option UNode} {cs : List FsNode}
    (h : SOInv (.mk nm c cs)) : ∀ x ∈ cs, SOInv x := by
  cases h with
  | sealed _ _ => simp
  | opened _ _ hcs => exact hcs

theorem SOInv_mkdirSegs : ∀ (segs : List String) (n : FsNode), SOInv n →
    SOInv (mkdirSegs segs n)
  | [], _, h => h
  | s :: rest, n, h => by
    by_cases hs : s = ("")
    · rw [mkdirSegs]
      simp [hs, h]
    · cases hu : unpack n with
      | mk nm c cs =>
        have hc : c = none := by
          have := unpack_cid n
          rw [hu] at this
          simpa using this
        subst hc
        rw [mkdirSegs_cons_eq hs rest hu]
        refine SOInv.opened nm _ ?_
        have hcs : ∀ x ∈ cs, SOInv x := by
          have := SOInv_unpack h
          rw [hu] at this
          exact SOInv_children this
        exact SOInv_updFirst hcs (fun x hx => SOInv_mkdirSegs rest x hx)

theorem SOInv_addChild {n c : FsNode} (hn : SOInv n) (hc : SOInv c)
    (hcid : n.cid = none) : SOInv (addChild n c) := by
  cases n with
  | mk nm c₀ cs =>
    simp only [FsNode.cid_mk] at hcid
    subst hcid
    cases cs with
    | nil =>
      show SOInv (.mk nm none [c])
      exact SOInv.opened nm [c] (by simpa using hc)
    | cons x xs =>
      show SOInv (.mk nm none (x :: xs ++ [c]))
      refine SOInv.opened nm _ ?_
      intro y hy
      rcases List.mem_append.mp hy with hy' | hy'
      · exact SOInv_children hn y hy'
      · rcases List.mem_singleton.mp hy' with rfl
        exact hc

theorem SOInv_writeSegs : ∀ (segs : List String) (u : UNode) (n : FsNode), SOInv n →
    SOInv (writeSegs segs u n)
  | [], _, _, h => h
  | [last], u, n, h => by
    rw [writeSegs_single]
    exact SOInv_addChild (SOInv_unpack h) (SOInv.sealed last u) (unpack_cid n)
  | s :: s2 :: rest, u, n, h => by
    cases hu : unpack n with
    | mk nm c cs =>
      have hc : c = none := by
        have := unpack_cid n
        rw [hu] at this
        simpa using this
      subst hc
      have hgoal : writeSegs (s :: s2 :: rest) u n =
          FsNode.mk nm none (updFirst cs s (writeSegs (s2 :: rest) u)) := by
        have heq : writeSegs (s :: s2 :: rest) u n =
            match unpack n with
            | FsNode.mk nm c cs => FsNode.mk nm c (updFirst cs s (writeSegs (s2 :: rest) u)) :=
          rfl
        rw [heq, hu]
      rw [hgoal]
      refine SOInv.opened nm _ ?_
      have hcs : ∀ x ∈ cs, SOInv x := by
        have := SOInv_unpack h
        rw [hu] at this
        exact SOInv_children this
      exact SOInv_updFirst hcs (fun x hx => SOInv_writeSegs (s2 :: rest) u x hx)

theorem SOInv_flush {b : Builder} (h : SOInv b.root) : SOInv (((b.Flush).1).root) := by
  cases b with
  | mk root node =>
    cases root with
    | mk nm c cs =>
      cases c with
      | none => exact SOInv.sealed nm _
      | some v =>
        simp only at h
        exact h

theorem SOInv_runOps : ∀ (ops : List BOp) (b : Builder), SOInv b.root →
    SOInv ((runOps ops b).root)
  | [], _, h => h
  | .mkdir p :: ops, b, h =>
    SOInv_runOps ops _ (SOInv_mkdirSegs (splitOnSlash p) b.root h)
  | .write p u :: ops, b, h =>
    SOInv_runOps ops _ (SOInv_writeSegs (splitOnSlash p) u b.root h)
  | .flush :: ops, _b, h => SOInv_runOps ops _ (SOInv_flush h)

/-- C9: the Sealed/Open mutual-exclusion invariant holds in every
builder state reachable by any sequence of `MkdirAll`, `WriteFileNode`
and `Flush` from the two entry points; no reachable node has both a cid
and children; and `unpack` is the Sealed → Open transition, populating
the children from the stored node and clearing the cid. -/
theorem C9_sealed_open_invariant :
    (∀ (ops : List BOp) (b : Builder), SOInv b.root → SOInv ((runOps ops b).root)) ∧
    (SOInv NewBuilder.root ∧ ∀ (b : Builder) (u : UNode), SOInv ((b.WithRootNode u).root)) ∧
    (∀ (n : FsNode), SOInv n → ∀ u, n.cid = some u → n.children = []) ∧
    (∀ (nm : String) (u : UNode) (cs : List FsNode),
      unpack (.mk nm (some u) cs) =
        .mk nm none ((u.linksOf).map (fun e => FsNode.mk e.1 (some e.2) []))) := by
  refine ⟨SOInv_runOps, ⟨SOInv.opened ("") [] (by simp), ?_⟩, ?_, ?_⟩
  · intro b u
    exact SOInv.sealed ("") u
  · intro n hn u hcid
    cases hn with
    | sealed nm v => rfl
    | opened nm cs hcs => simp at hcid
  · intro nm u cs
    exact unpack_sealed nm u cs

theorem C9_sealed_open_invariant_witness :
    SOInv NewBuilder.root ∧
    SOInv ((runOps [BOp.mkdir ("a"), BOp.write ("a/b") (UNode.file 0), BOp.flush]
      NewBuilder).root) :=
  ⟨SOInv.opened ("") [] (fun c hc => absurd hc (List.not_mem_nil c)),
    C9_sealed_open_invariant.1
      [BOp.mkdir ("a"), BOp.write ("a/b") (UNode.file 0), BOp.flush] NewBuilder
      (SOInv.opened ("") [] (fun c hc => absurd hc (List.not_mem_nil c)))⟩

/-- C10: reading bytes from any directory handle returned by `FS.Open`
returns zero bytes and a `fs.PathError` with op `"read"` wrapping
`fs.ErrInvalid`, leaving the handle (and so its enumeration offset)
unchanged. -/
theorem C10_dir_read_fails (fs : FSm) (p : String) (d : DirHandle) (bufLen : Nat)
    (_hopen : fs.Open p = .ok (.dirH d)) :
    d.read bufLen = (0, ⟨("read"), d.dname, .invalid⟩, d) := rfl

theorem C10_dir_read_fails_witness :
    ((FSm.mk (UNode.dir [])).Open (".") =
      .ok (.dirH (DirHandle.mk ("") (UNode.dir []) none 0))) ∧
    ((DirHandle.mk ("") (UNode.dir []) none 0).read 5 =
      (0, ⟨("read"), (""), .invalid⟩, DirHandle.mk ("") (UNode.dir []) none 0)) :=
  ⟨by decide, C10_dir_read_fails (FSm.mk (UNode.dir [])) (".")
    (DirHandle.mk ("") (UNode.dir []) none 0) 5 (by decide)⟩
